import Mathlib

/-!
Verification development for the chat-completion gateway (schema mapper,
SSE stream translators, reasoning orchestrator, error normalizer).

The TypeScript sources are shallowly embedded:
* JSON values become the inductive `Json` (numbers as `Int`; the claims
  under study never depend on float semantics);
* JavaScript property access `x?.f` becomes `jget`/`jpath` returning
  `Option Json`, where `none` models `undefined` and `some .null` models a
  present `null` (both trigger the `??` operator, only `none` is
  `!== undefined`);
* JavaScript truthiness becomes `jsTruthy`;
* text is modelled as `List Char`, bytes as `List Nat`;
* each stream translator becomes a pure step function on an explicit state
  record, and the read-pump becomes a fold over the list of received
  chunks followed by the end-of-stream (or stream-failure) frames.
-/

/-- JSON value model. Numbers are modelled as integers: every numeric field
the embedded code inspects (indices, token counts, status codes) is integral
in the upstream protocol. -/
inductive Json where
  | null : Json
  | bool : Bool → Json
  | num : Int → Json
  | str : String → Json
  | arr : List Json → Json
  | obj : List (String × Json) → Json

/-- Property lookup, modelling JavaScript `x?.k`. `none` is `undefined`
(absent key or non-object base, including `null`); `some .null` is a present
JSON `null`. -/
def jget : Json → String → Option Json
  | .obj fields, k => fields.lookup k
  | _, _ => none

/-- Optional-chaining path lookup `x?.k1?.k2...`: `null`/`undefined`/primitive
bases yield `undefined`. -/
def jpath (j : Json) : List String → Option Json
  | [] => some j
  | k :: ks =>
    match jget j k with
    | some v => jpath v ks
    | none => none

/-- JavaScript truthiness: `null`/`undefined`, `false`, `0` and `""` are
falsy, all other values (including `[]` and objects) are truthy. -/
def jsTruthy : Json → Bool
  | .null => false
  | .bool b => b
  | .num n => n != 0
  | .str s => s != ""
  | .arr _ => true
  | .obj _ => true

/-- The `??` operator applied to an optional-chained value: `none`
(`undefined`) and `some .null` (`null`) select the default. -/
def jcoalesce (o : Option Json) (d : Json) : Json :=
  match o with
  | some .null => d
  | some v => v
  | none => d

/-- The `||` operator on JSON values: falsy left operand selects the right. -/
def jor (j : Json) (d : Json) : Json :=
  if jsTruthy j then j else d

/-- Test whether a JSON value is the string `s` (JavaScript `=== "s"`). -/
def isStr (j : Json) (s : String) : Bool :=
  match j with
  | .str t => t == s
  | _ => false

/-- Extract a string if the value is one, else a default (JavaScript
`typeof x === "string" ? x : d`). -/
def asStrD (o : Option Json) (d : String) : String :=
  match o with
  | some (.str s) => s
  | _ => d

/-- Test `typeof x === "string"` on an optional-chained value. -/
def isStrTy (o : Option Json) : Bool :=
  match o with
  | some (.str _) => true
  | _ => false

/-- Test `typeof x === "number"` on an optional-chained value. -/
def isNumTy (o : Option Json) : Bool :=
  match o with
  | some (.num _) => true
  | _ => false

/-- Array index access `x?.[n]` (non-arrays yield `undefined`; the string
case of JavaScript indexing is only ever followed by a property access that
returns `undefined` anyway). -/
def jidx (j : Json) (n : Nat) : Option Json :=
  match j with
  | .arr l => l.get? n
  | _ => none

/-- JavaScript `String(x)` / string coercion used by `+` on a string operand.
Object and array coercion (via `toString`) is modelled loosely; no claim
under study exercises it. -/
def jsToString : Json → String
  | .null => "null"
  | .bool b => if b then "true" else "false"
  | .num n => toString n
  | .str s => s
  | .arr _ => ""
  | .obj _ => "[object Object]"

/-- JavaScript `Number(x)` on the values the embedded code feeds it
(numbers, booleans, null); other coercions are never exercised by the
claims and collapse to 0. -/
def jsNumberish : Json → Int
  | .num n => n
  | .bool b => if b then 1 else 0
  | _ => 0

/-- Hexadecimal digit for `\u00XX` escapes. -/
def hexDigit (n : Nat) : Char :=
  if n < 10 then Char.ofNat (48 + n) else Char.ofNat (87 + n)

/-- JSON string escaping as performed by `JSON.stringify`. -/
def jsonEscapeChar (c : Char) : List Char :=
  if c = '"' then ['\\', '"']
  else if c = '\\' then ['\\', '\\']
  else if c = '\n' then ['\\', 'n']
  else if c = '\r' then ['\\', 'r']
  else if c = '\t' then ['\\', 't']
  else if c.toNat < 32 then
    ['\\', 'u', '0', '0', hexDigit (c.toNat / 16), hexDigit (c.toNat % 16)]
  else [c]

/-- Quoted JSON string literal. -/
def jsonQuote (s : String) : String :=
  String.mk ('"' :: (s.data.flatMap jsonEscapeChar) ++ ['"'])

mutual

/-- Model of `JSON.stringify` on the (cycle-free) values the code builds. -/
def jsonStringify : Json → String
  | .null => "null"
  | .bool b => if b then "true" else "false"
  | .num n => toString n
  | .str s => jsonQuote s
  | .arr xs => "[" ++ jsonStringifyList xs ++ "]"
  | .obj fields => "\x7b" ++ jsonStringifyFields fields ++ "\x7d"

/-- Comma-joined serialization of array elements. -/
def jsonStringifyList : List Json → String
  | [] => ""
  | [x] => jsonStringify x
  | x :: xs => jsonStringify x ++ "," ++ jsonStringifyList xs

/-- Comma-joined serialization of object fields. -/
def jsonStringifyFields : List (String × Json) → String
  | [] => ""
  | [(k, v)] => jsonQuote k ++ ":" ++ jsonStringify v
  | (k, v) :: fs => jsonQuote k ++ ":" ++ jsonStringify v ++ "," ++ jsonStringifyFields fs

end

/-! ## Text utilities (the SSE Frame Reader works on decoded text) -/

/-- Test whether list `p` is an initial segment of list `l` (JavaScript
`String.startsWith`). -/
def startsWithL (p l : List Char) : Bool :=
  List.isPrefixOf p l

/-- JavaScript `String.trim` restricted to the whitespace characters that
occur in SSE traffic (space, tab, CR, LF). -/
def isWsChar (c : Char) : Bool :=
  c = ' ' || c = '\t' || c = '\r' || c = '\n'

/-- Trim whitespace from both ends of a character list. -/
def trimChars (l : List Char) : List Char :=
  ((l.dropWhile isWsChar).reverse.dropWhile isWsChar).reverse

/-- Split on the regular expression `\r?\n`, as `String.split(/\r?\n/)`:
a leftmost scan cutting at each `\r\n` or bare `\n`. -/
def splitLines : List Char → List (List Char)
  | [] => [[]]
  | '\r' :: '\n' :: rest => [] :: splitLines rest
  | '\n' :: rest => [] :: splitLines rest
  | c :: rest =>
    match splitLines rest with
    | s :: ss => (c :: s) :: ss
    | [] => [[c]]

/-- Split on the two-character frame delimiter, as
`String.split("\n\n")`: a leftmost greedy scan. -/
def splitNN : List Char → List (List Char)
  | [] => [[]]
  | '\n' :: '\n' :: rest => [] :: splitNN rest
  | c :: rest =>
    match splitNN rest with
    | s :: ss => (c :: s) :: ss
    | [] => [[c]]

/-- An SSE event as produced by `parseSSELines`: event name plus parsed
payload (`null` when the payload was absent or failed to parse). -/
structure SSEEv where
  event : String
  data : Json

/-- Raw frame scan of `parseSSELines` (both translator files carry an
identical copy): per line, `event:` lines set the pending event name,
`data:` lines accumulate payload lines, and a blank line flushes the
pending event — dropped when no (nonempty) event name is pending. This raw
stage returns `(eventName, joinedDataString)`; JSON parsing of the payload
is applied afterwards. -/
def parseSSEPairsGo : List (List Char) → Option (List Char) → List (List Char) → List (String × String)
  | [], _, _ => []
  | l :: ls, cur, dat =>
    if startsWithL "event:".data l then
      parseSSEPairsGo ls (some (trimChars (l.drop 6))) dat
    else if startsWithL "data:".data l then
      parseSSEPairsGo ls cur (dat ++ [trimChars (l.drop 5)])
    else if trimChars l = [] then
      (match cur with
       | some n =>
         if n ≠ [] then
           (String.mk n, String.mk (List.intercalate ['\n'] dat)) :: parseSSEPairsGo ls none []
         else parseSSEPairsGo ls none []
       | none => parseSSEPairsGo ls none [])
    else parseSSEPairsGo ls cur dat

/-- Raw `(eventName, dataString)` pairs parsed from a text block. -/
def parseSSEPairs (text : List Char) : List (String × String) :=
  parseSSEPairsGo (splitLines text) none []

/-- Payload parsing stage: `dataStr ? JSON.parse(dataStr) : null`, with a
parse failure yielding `null`. The platform JSON parser enters the
embedding as the parameter `p` (a fixed but arbitrary function of the data
string); every theorem below quantifies over it. -/
def parsePayload (p : String → Option Json) (d : String) : Json :=
  if d = "" then .null else (p d).getD .null

/-- Full `parseSSELines` model: raw scan followed by payload parsing. -/
def parseSSEEvents (p : String → Option Json) (text : List Char) : List SSEEv :=
  (parseSSEPairs text).map (fun nd => ⟨nd.1, parsePayload p nd.2⟩)

/-! ## Error Normalizer (src/error-normalizer.ts) -/

/-- Upstream provider discriminator (TypeScript `Downstream`). -/
inductive Downstream where
  | openai : Downstream
  | anthropic : Downstream
deriving DecidableEq

/-- Canonical normalized error. `param` and `code` hold whatever JSON value
the upstream supplied (`null` when absent), exactly as the TypeScript
object does. -/
structure NormErr where
  status : Int
  message : String
  etype : String
  param : Json
  code : Json

/-- Strip ASCII control characters and truncate to 2000 characters
(`sanitizeMsg`). -/
def sanitizeMsg (m : String) : String :=
  String.mk (((m.data.filter (fun c => !(c.toNat ≤ 31 || c.toNat = 127)))).take 2000)

/-- Status coercion shared by both providers (`coerceStatus`). -/
def coerceStatus (s : Int) : Int :=
  if s = 404 || s = 413 then 400
  else if s = 529 then 503
  else if s ≥ 500 && s ≠ 500 && s ≠ 503 then 502
  else s

/-- Provider-A status coercion (`mapAnthropicStatus`); the second argument
is the upstream error `type` value. -/
def mapAnthropicStatus (status : Int) (anthropicType : Json) : Int :=
  if status = 404 then 400
  else if status = 413 then 400
  else if status = 529 || isStr anthropicType "overloaded_error" then 503
  else if status ≥ 500 && status ≠ 500 && status ≠ 503 then 502
  else status

/-- Provider-B error-type mapping (`mapTypeOpenAI`). -/
def mapTypeOpenAI (t : Json) : String :=
  if isStr t "invalid_request_error" then "invalid_request_error"
  else if isStr t "authentication_error" then "authentication_error"
  else if isStr t "permission_error" then "permission_error"
  else if isStr t "rate_limit_error" then "rate_limit_error"
  else "server_error"

/-- Provider-A error-type mapping (`mapAnthropicType`): canonical type plus
derived code. -/
def mapAnthropicType (t : Json) : String × Json :=
  if isStr t "invalid_request_error" then ("invalid_request_error", .null)
  else if isStr t "authentication_error" then ("authentication_error", .str "invalid_api_key")
  else if isStr t "permission_error" then ("permission_error", .str "insufficient_permissions")
  else if isStr t "not_found_error" then ("invalid_request_error", .str "not_found")
  else if isStr t "request_too_large" then ("invalid_request_error", .str "request_too_large")
  else if isStr t "rate_limit_error" then ("rate_limit_error", .str "rate_limit_exceeded")
  else if isStr t "overloaded_error" then ("server_error", .str "overloaded_error")
  else ("server_error", .str "api_error")

/-- Fixed fallback returned when the body matches no known shape. -/
def fallbackErr : NormErr :=
  { status := 502
    message := "An downstream error occurred and could not be normalized"
    etype := "server_error"
    param := .null
    code := .str "normalization_failure" }

/-- Normalized error for a raw string body (the shared `typeof body ===
"string"` branch of `normalizeError`). -/
def stringBodyErr (status : Int) (s : String) : NormErr :=
  { status := coerceStatus status
    message := sanitizeMsg s
    etype := if status ≥ 500 then "server_error" else "invalid_request_error"
    param := .null
    code := .null }

/-- Recognizable provider-B error shape: `j?.error` truthy with a string
`message` (the guard of the first `openai` branch of `normalizeError`). -/
def recognizableOpenAI (body : Json) : Bool :=
  match jget body "error" with
  | some e => jsTruthy e && isStrTy (jget e "message")
  | none => false

/-- Recognizable provider-A error shape: `j?.type === "error"` and `j?.error`
truthy with a string `message`. -/
def recognizableAnthropic (body : Json) : Bool :=
  isStr (jcoalesce (jget body "type") .null) "error" &&
    (match jget body "error" with
     | some e => jsTruthy e && isStrTy (jget e "message")
     | none => false)

/-- Test for a raw string body. -/
def isStringBody (body : Json) : Bool :=
  match body with
  | .str _ => true
  | _ => false

/-- Model of `normalizeError`. The TypeScript function is wrapped in a
`try`/`catch` returning `fallback`; the embedding is total, so "never
throws" is captured by totality and the `catch` arm is dead. -/
def normalizeError (downstream : Downstream) (status : Int) (body : Json) : NormErr :=
  match downstream with
  | .openai =>
    if recognizableOpenAI body then
      match jget body "error" with
      | some e =>
        { status := coerceStatus status
          message := sanitizeMsg (asStrD (jget e "message") "")
          etype := mapTypeOpenAI (jcoalesce (jget e "type") .null)
          param := jcoalesce (jget e "param") .null
          code := jcoalesce (jget e "code") .null }
      | none => fallbackErr
    else
      match body with
      | .str s => stringBodyErr status s
      | _ => fallbackErr
  | .anthropic =>
    if recognizableAnthropic body then
      match jget body "error" with
      | some e =>
        let mapped := mapAnthropicType (jcoalesce (jget e "type") .null)
        { status := mapAnthropicStatus status (jcoalesce (jget e "type") .null)
          message := sanitizeMsg (asStrD (jget e "message") "")
          etype := mapped.1
          param := .null
          code := mapped.2 }
      | none => fallbackErr
    else
      match body with
      | .str s => stringBodyErr status s
      | _ => fallbackErr

/-! ## Byte layer: UTF-8 encoding and the streaming `TextDecoder`

The read loop decodes each received byte chunk with
`decoder.decode(value, { stream: true })`: a streaming decoder that carries
an incomplete trailing multi-byte sequence over to the next chunk. The
decoder is modelled on well-formed UTF-8 streams, the only inputs the
claims quantify over (replacement-character behaviour on invalid bytes is
out of scope). -/

/-- UTF-8 encoding of one code point (given as a `Nat`). -/
def utf8EncodeNat (n : Nat) : List Nat :=
  if n < 0x80 then [n]
  else if n < 0x800 then [0xC0 + n / 64, 0x80 + n % 64]
  else if n < 0x10000 then [0xE0 + n / 4096, 0x80 + (n / 64) % 64, 0x80 + n % 64]
  else [0xF0 + n / 0x40000, 0x80 + (n / 4096) % 64, 0x80 + (n / 64) % 64, 0x80 + n % 64]

/-- UTF-8 encoding of a character list (the model of `TextEncoder`). -/
def utf8Bytes (cs : List Char) : List Nat :=
  cs.flatMap (fun c => utf8EncodeNat c.toNat)

/-- Total sequence length implied by a UTF-8 lead byte. -/
def utf8Need (b : Nat) : Nat :=
  if b < 0x80 then 1
  else if b < 0xE0 then 2
  else if b < 0xF0 then 3
  else 4

/-- Decode one complete UTF-8 sequence back to its code point. -/
def utf8DecodeCp : List Nat → Nat
  | [b] => b
  | [b1, b2] => (b1 - 0xC0) * 64 + (b2 - 0x80)
  | [b1, b2, b3] => (b1 - 0xE0) * 4096 + (b2 - 0x80) * 64 + (b3 - 0x80)
  | [b1, b2, b3, b4] => (b1 - 0xF0) * 0x40000 + (b2 - 0x80) * 4096 + (b3 - 0x80) * 64 + (b4 - 0x80)
  | _ => 0

/-- Greedy decoding of the available bytes: decode complete sequences,
return the trailing incomplete sequence as the carry. -/
def decodeAvail (bs : List Nat) : List Char × List Nat :=
  match h : bs with
  | [] => ([], [])
  | b :: _ =>
    let k := utf8Need b
    if hk : bs.length < k then ([], bs)
    else
      have hk1 : 1 ≤ k := by
        simp only [utf8Need, k]
        split <;> try split <;> try split
        all_goals omega
      let (cs, p) := decodeAvail (bs.drop k)
      (Char.ofNat (utf8DecodeCp (bs.take k)) :: cs, p)
termination_by bs.length
decreasing_by
  have hL := congrArg List.length h
  simp only [List.length_cons] at hL
  simp only [List.length_drop, List.length_cons]
  omega

/-- Streaming decode of a chunked byte stream: each chunk is appended to
the carried partial sequence and decoded greedily; the text produced per
chunk is returned per chunk (trailing undecoded bytes at end of stream are
dropped, matching a decoder that is never flushed). -/
def textOf (pending : List Nat) : List (List Nat) → List (List Char)
  | [] => []
  | chunk :: rest =>
    let (out, p) := decodeAvail (pending ++ chunk)
    out :: textOf p rest

/-! ## Unified output frames

Every translator writes frames of the form `data: <json-or-literal>\n\n`.
The frame model below captures the payload shape each enqueue site builds;
the constant envelope metadata (generated chunk id, creation timestamp,
model name, `object: "chat.completion.chunk"`, `index: 0`) is fixed per
stream and elided. -/

/-- Running token-usage totals of the legacy translator. -/
structure Usage where
  prompt_tokens : Int
  completion_tokens : Int
  total_tokens : Int
deriving DecidableEq

/-- One output SSE frame. `content c` is a chunk whose `delta.content` is
`c`; `finish r` is a chunk with empty delta and `finish_reason` `r`;
the four thinking constructors carry the wrapped `data` object of an
`oai.thinking.delta` / `oai.thinking.done` / `oai.thinking.part.added` /
`oai.thinking.part.done` wrapper; `errFrame` is an Error-Normalizer frame;
`done` is the literal `[DONE]`. -/
inductive OFrame where
  | role : OFrame
  | content : Json → OFrame
  | finish : Option String → OFrame
  | thinkingDelta : Json → OFrame
  | thinkingDone : Json → OFrame
  | thinkingPartAdded : Json → OFrame
  | thinkingPartDone : Json → OFrame
  | errFrame : NormErr → OFrame
  | done : OFrame
  | usageSummary : Usage → OFrame

/-- Test whether an optional-chained value equals the string `s`. -/
def isOptStr (o : Option Json) (s : String) : Bool :=
  match o with
  | some (.str t) => t == s
  | _ => false

/-- The `??` operator between two optional-chained values (the right one
may itself be absent). -/
def ocoalesce (a b : Option Json) : Option Json :=
  match a with
  | some .null => b
  | none => b
  | some v => some v

/-- Scan for an occurrence of `pat` starting at any position of the second
list. -/
def subSearch (pat : List Char) : List Char → Bool
  | [] => List.isPrefixOf pat []
  | c :: rest => List.isPrefixOf pat (c :: rest) || subSearch pat rest

/-- JavaScript `String.includes`. -/
def containsSub (s pat : String) : Bool :=
  subSearch pat.data s.data

/-- Lazy role announcement (`pushAssistantRoleIfNeeded`): emit the
`delta.role = "assistant"` chunk once. -/
def rolePush (sent : Bool) : Bool × List OFrame :=
  if sent then (true, []) else (true, [.role])

/-! ## Translator variant (a): `anthropicSSEtoOAIChunks` -/

/-- Per-stream state of variant (a): role/finished flags plus the two
per-content-block maps keyed by block index. -/
structure AState where
  sentRole : Bool
  finished : Bool
  blockTypeByIndex : Int → Option Json
  signatureByIndex : Int → Option String

/-- Initial variant-(a) state. -/
def initA : AState :=
  { sentRole := false, finished := false
    blockTypeByIndex := fun _ => none, signatureByIndex := fun _ => none }

/-- Payload of a thinking delta/done frame. -/
def thinkingObj (thinking : Json) (signature : String) : Json :=
  .obj [("type", .str "thinking"), ("thinking", thinking), ("signature", .str signature)]

/-- Payload of a redacted-thinking frame. -/
def redactedObj (data : Json) : Json :=
  .obj [("type", .str "redacted_thinking"), ("data", data)]

/-- Branch of variant (a) for `message_start`: announce the role. -/
def aMsgStart (st : AState) : AState × List OFrame :=
  let (s, out) := rolePush st.sentRole
  ({ st with sentRole := s }, out)

/-- Branch of variant (a) for `content_block_start`: record the block type
and reset the signature accumulator for that index. -/
def aBlockStart (st : AState) (data : Json) : AState × List OFrame :=
  let cbType := jor (jcoalesce (jpath data ["content_block", "type"]) .null) (.str "")
  match jpath data ["index"] with
  | some (.num i) =>
    ({ st with
        blockTypeByIndex := fun j => if j = i then some cbType else st.blockTypeByIndex j
        signatureByIndex := fun j => if j = i then some "" else st.signatureByIndex j }, [])
  | _ => (st, [])

/-- Delta-type dispatch inside the `content_block_delta` branch of variant
(a): thinking / signature / redacted-thinking deltas. -/
def aDeltaDispatch (st : AState) (data : Json) : AState × List OFrame :=
  let idx := jpath data ["index"]
  let deltaType := jpath data ["delta", "type"]
  if isOptStr deltaType "thinking_delta" then
    let td := jcoalesce (jpath data ["delta", "thinking"]) (.str "")
    (st, if jsTruthy td then [.thinkingDelta (thinkingObj td "")] else [])
  else if isOptStr deltaType "signature_delta" then
    let sig := jcoalesce (jpath data ["delta", "signature"]) (.str "")
    (if jsTruthy sig then
       match idx with
       | some (.num i) =>
         { st with signatureByIndex := fun j =>
             if j = i then some ((st.signatureByIndex i).getD "" ++ jsToString sig)
             else st.signatureByIndex j }
       | _ => st
     else st, [])
  else if isOptStr deltaType "redacted_thinking_delta" then
    let rd := jcoalesce (jpath data ["delta", "data"]) (.str "")
    (st, if jsTruthy rd then [.thinkingDelta (redactedObj rd)] else [])
  else (st, [])

/-- Branch of variant (a) for `content_block_delta`: role push, the
delta-type dispatch above, then the text-delta emission. -/
def aBlockDelta (st : AState) (data : Json) : AState × List OFrame :=
  let (s, roleOut) := rolePush st.sentRole
  let (st1, thinkOut) := aDeltaDispatch st data
  let textDelta := jcoalesce (jpath data ["delta", "text"]) (.str "")
  let textOut := if jsTruthy textDelta then [.content textDelta] else []
  ({ st1 with sentRole := s }, roleOut ++ thinkOut ++ textOut)

/-- Branch of variant (a) for `content_block_stop`: emit the done wrapper
for thinking blocks and delete the per-index state. -/
def aBlockStop (st : AState) (data : Json) : AState × List OFrame :=
  match jpath data ["index"] with
  | some (.num i) =>
    let cbType := jor (jcoalesce (st.blockTypeByIndex i) .null) (.str "")
    let out :=
      if isStr cbType "thinking" then
        [.thinkingDone (thinkingObj (.str "") ((st.signatureByIndex i).getD ""))]
      else if isStr cbType "redacted_thinking" then
        [.thinkingDone (redactedObj (.str ""))]
      else []
    ({ st with
        blockTypeByIndex := fun j => if j = i then none else st.blockTypeByIndex j
        signatureByIndex := fun j => if j = i then none else st.signatureByIndex j }, out)
  | _ => (st, [])

/-- Branch of variant (a) for `message_delta`: emit the finish chunk for
the two recognized stop reasons. -/
def aMsgDelta (st : AState) (data : Json) : AState × List OFrame :=
  let sr := ocoalesce (jpath data ["delta", "stop_reason"]) (jpath data ["stop_reason"])
  if isOptStr sr "end_turn" then (st, [.finish (some "stop")])
  else if isOptStr sr "max_tokens" then (st, [.finish (some "length")])
  else (st, [])

/-- Event handling of variant (a): one branch per upstream Anthropic event
type, mirroring the `processText` dispatch of `anthropicSSEtoOAIChunks`. -/
def stepA (st : AState) (e : SSEEv) : AState × List OFrame :=
  if e.event == "message_start" then aMsgStart st
  else if e.event == "content_block_start" then aBlockStart st e.data
  else if e.event == "content_block_delta" then aBlockDelta st e.data
  else if e.event == "content_block_stop" then aBlockStop st e.data
  else if e.event == "message_delta" then aMsgDelta st e.data
  else (st, [])

/-! ## Translator variant (b): `responsesSSEtoOAIChunks` -/

/-- Per-stream state of variant (b). -/
structure BState where
  sentRole : Bool
  finished : Bool

/-- Initial variant-(b) state. -/
def initB : BState := { sentRole := false, finished := false }

/-- Correlation-token signature of a reasoning-summary part lifecycle
frame: a JSON-encoded `item_id`/`summary_index` pair. -/
def partSignature (data : Json) : String :=
  let itemId := asStrD (jget data "item_id") ""
  let si := match jget data "summary_index" with
            | some (.num n) => Json.num n
            | _ => Json.null
  jsonStringify (.obj [("item_id", .str itemId), ("summary_index", si)])

/-- The `emitFinish` helper of variant (b): drops the chunk once `[DONE]`
has been sent. -/
def emitFinishB (st : BState) (r : String) : List OFrame :=
  if st.finished then [] else [.finish (some r)]

/-- Branch of variant (b) for the reasoning-summary part lifecycle
(`added`/`done`): emitted without a role push. -/
def bPart (st : BState) (data : Json) (added : Bool) : BState × List OFrame :=
  let frame := Json.obj [("type", .str "thinking"), ("thinking", .str ""),
    ("signature", .str (partSignature data))]
  (st, [if added then .thinkingPartAdded frame else .thinkingPartDone frame])

/-- Branch of variant (b) for `reasoning_summary_text.delta`. -/
def bSummaryDelta (st : BState) (data : Json) : BState × List OFrame :=
  let textDelta := if isStrTy (jget data "delta") then asStrD (jget data "delta") ""
                   else asStrD (jget data "text") ""
  if textDelta ≠ "" then
    let (s, roleOut) := rolePush st.sentRole
    ({ st with sentRole := s }, roleOut ++ [.thinkingDelta (thinkingObj (.str textDelta) "")])
  else (st, [])

/-- Branch of variant (b) for `reasoning_summary_text.done`. -/
def bSummaryDone (st : BState) (data : Json) : BState × List OFrame :=
  let textFinal := asStrD (jget data "text") ""
  if textFinal ≠ "" then
    let (s, roleOut) := rolePush st.sentRole
    ({ st with sentRole := s }, roleOut ++ [.thinkingDone (thinkingObj (.str textFinal) "")])
  else (st, [])

/-- Branch of variant (b) for `output_text.delta` (or any event carrying a
string `delta`). -/
def bOutputDelta (st : BState) (data : Json) : BState × List OFrame :=
  let textDelta := asStrD (jget data "delta") ""
  if textDelta ≠ "" then
    let (s, roleOut) := rolePush st.sentRole
    ({ st with sentRole := s }, roleOut ++ [.content (.str textDelta)])
  else (st, [])

/-- Branch of variant (b) for `response.completed`. -/
def bCompleted (st : BState) : BState × List OFrame :=
  let (s, roleOut) := rolePush st.sentRole
  ({ st with sentRole := s }, roleOut ++ emitFinishB st "stop")

/-- Branch of variant (b) for `response.incomplete`. -/
def bIncomplete (st : BState) (data : Json) : BState × List OFrame :=
  let (s, roleOut) := rolePush st.sentRole
  let reason := jsToString (jor (jcoalesce (jget data "reason") .null) (.str ""))
  ({ st with sentRole := s },
    roleOut ++ emitFinishB st (if reason == "max_output_tokens" then "length" else "stop"))

/-- Event handling of variant (b), mirroring the `ev.includes(...)`
dispatch chain (with its `continue` statements) of
`responsesSSEtoOAIChunks`. -/
def stepB (st : BState) (e : SSEEv) : BState × List OFrame :=
  let ev := e.event
  let data := jor e.data (.obj [])
  if containsSub ev "reasoning_summary_part.added" then bPart st data true
  else if containsSub ev "reasoning_summary_part.done" then bPart st data false
  else if containsSub ev "reasoning_summary_text.delta" then bSummaryDelta st data
  else if containsSub ev "reasoning_summary_text.done" then bSummaryDone st data
  else if containsSub ev "output_text.delta" || isStrTy (jget data "delta") then bOutputDelta st data
  else if containsSub ev "response.completed" then bCompleted st
  else if containsSub ev "response.incomplete" then bIncomplete st data
  else (st, [])

/-! ## Translator variant (c): `responsesSSEToLegacyChunks` -/

/-- Per-stream state of variant (c): flags, accumulated text length and
running usage totals. -/
structure CState where
  sentRole : Bool
  finished : Bool
  accTextLen : Int
  usage : Usage

/-- Initial variant-(c) state. -/
def initC : CState :=
  { sentRole := false, finished := false, accTextLen := 0
    usage := { prompt_tokens := 0, completion_tokens := 0, total_tokens := 0 } }

/-- Usage update shared by the `response.completed` and
`rate_limits.updated` branches of variant (c). -/
def usageUpdateC (old : Usage) (data : Json) : Usage :=
  let u := jcoalesce (ocoalesce (jget data "usage") (jpath data ["response", "usage"])) .null
  if jsTruthy u && isNumTy (jget u "total_tokens") then
    { prompt_tokens := jsNumberish (jcoalesce (jget u "prompt_tokens") (.num old.prompt_tokens))
      completion_tokens := jsNumberish (jcoalesce (jget u "completion_tokens") (.num old.completion_tokens))
      total_tokens := jsNumberish (jcoalesce (jget u "total_tokens") (.num 0)) }
  else old

/-- Branch of variant (c) for `response.output_text.delta`. -/
def cOutputDelta (st : CState) (data : Json) : CState × List OFrame :=
  let deltaText := jcoalesce (jget data "delta") (.str "")
  match deltaText with
  | .str s =>
    if s.length > 0 then
      let (sr, roleOut) := rolePush st.sentRole
      ({ st with sentRole := sr, accTextLen := st.accTextLen + s.length },
        roleOut ++ [.content (.str s)])
    else (st, [])
  | _ => (st, [])

/-- Branch of variant (c) for `response.completed`: usage update plus the
finish chunk (no role push in this variant). -/
def cCompleted (st : CState) (data : Json) : CState × List OFrame :=
  let usage1 := usageUpdateC st.usage data
  let stopReason := jget data "finish_reason"
  let finish : Option String :=
    if isOptStr stopReason "stop" then some "stop"
    else if isOptStr stopReason "length" || isOptStr stopReason "max_output_tokens" then some "length"
    else none
  ({ st with usage := usage1 }, [.finish finish])

/-- Event handling of variant (c), mirroring `handleFrame` of
`responsesSSEToLegacyChunks`. -/
def stepC (st : CState) (e : SSEEv) : CState × List OFrame :=
  if e.event == "response.output_text.delta" then cOutputDelta st e.data
  else if e.event == "response.completed" then cCompleted st e.data
  else if e.event == "rate_limits.updated" then
    ({ st with usage := usageUpdateC st.usage e.data }, [])
  else (st, [])

/-! ## Stream pump shared by the three translators

`reader.read().then(handle)` repeatedly: decodes the received chunk,
appends it to the carried buffer, splits off every complete frame
(`"\n\n"`-delimited), parses each frame (with the trailing `"\n\n"`
re-appended, exactly as `processText` / the `indexOf` loop do) and handles
the resulting events. On `done` the translator emits its end-of-stream
frames; a rejected read triggers the `catch` handler instead. -/

/-- One buffer step of `processText`: split off the complete frames,
carry the trailing partial frame. -/
def feedSplit (buf t : List Char) : List (List Char) × List Char :=
  let segs := splitNN (buf ++ t)
  (segs.dropLast, segs.getLastD [])

/-- Fold a translator step over a list of events, collecting the emitted
frames. -/
def runEvents {σ : Type} (step : σ → SSEEv → σ × List OFrame) :
    σ → List SSEEv → σ × List OFrame
  | st, [] => (st, [])
  | st, e :: es =>
    let (st1, out1) := step st e
    let (st2, out2) := runEvents step st1 es
    (st2, out1 ++ out2)

/-- Handle every complete frame extracted from the buffer: each segment is
parsed with the frame delimiter re-appended. -/
def runSegs {σ : Type} (step : σ → SSEEv → σ × List OFrame) (p : String → Option Json) :
    σ → List (List Char) → σ × List OFrame
  | st, [] => (st, [])
  | st, seg :: segs =>
    let (st1, out1) := runEvents step st (parseSSEEvents p (seg ++ ['\n', '\n']))
    let (st2, out2) := runSegs step p st1 segs
    (st2, out1 ++ out2)

/-- The read loop over the decoded text chunks, threading the partial-frame
buffer. -/
def pumpTexts {σ : Type} (step : σ → SSEEv → σ × List OFrame) (p : String → Option Json) :
    σ → List Char → List (List Char) → σ × List Char × List OFrame
  | st, buf, [] => (st, buf, [])
  | st, buf, t :: ts =>
    let (segs, buf1) := feedSplit buf t
    let (st1, out1) := runSegs step p st segs
    let (st2, buf2, out2) := pumpTexts step p st1 buf1 ts
    (st2, buf2, out1 ++ out2)

/-- End-of-stream behaviour of variants (a) and (b): `emitDone` guarded by
the `finished` flag. -/
def emitDoneAB (finished : Bool) : List OFrame :=
  if finished then [] else [.done]

/-- Failure (`catch`) behaviour of variants (a) and (b): one normalized
error frame for a severed stream, then a raw `[DONE]`. -/
def catchFramesAB (ds : Downstream) : List OFrame :=
  [.errFrame (normalizeError ds 502 (.str "stream terminated")), .done]

/-- End-of-stream and failure behaviour of variant (c): `emitDone` emits
`[DONE]` followed by the trailing usage summary (both paths call it). -/
def emitDoneC (st : CState) : List OFrame :=
  if st.finished then [] else [.done, .usageSummary st.usage]

/-- Complete output stream of `anthropicSSEtoOAIChunks` for a given
upstream byte-chunk sequence; `fails := true` models a read promise that
rejects after the listed chunks (the `catch` path), `false` a normal
end-of-stream. -/
def runA (p : String → Option Json) (ds : Downstream) (chunks : List (List Nat))
    (fails : Bool) : List OFrame :=
  let (st, _, out) := pumpTexts stepA p initA [] (textOf [] chunks)
  out ++ (if fails then catchFramesAB ds else emitDoneAB st.finished)

/-- Complete output stream of `responsesSSEtoOAIChunks`. -/
def runB (p : String → Option Json) (ds : Downstream) (chunks : List (List Nat))
    (fails : Bool) : List OFrame :=
  let (st, _, out) := pumpTexts stepB p initB [] (textOf [] chunks)
  out ++ (if fails then catchFramesAB ds else emitDoneAB st.finished)

/-- Complete output stream of `responsesSSEToLegacyChunks`: both the normal
and the failure path end with `emitDone` (no error frame is produced by the
legacy catch handler). -/
def runC (p : String → Option Json) (chunks : List (List Nat)) (_fails : Bool) : List OFrame :=
  let (st, _, out) := pumpTexts stepC p initC [] (textOf [] chunks)
  out ++ emitDoneC st

/-! ## Tool-Turn State (ToolTurn) -/

/-- A queued tool call. The TypeScript type annotates `call_id` and `name`
as strings but the extractor can store any JSON value in them; the
embedding keeps the runtime type. -/
structure RTool where
  call_id : Json
  name : Json
  arguments_json : String

/-- Tool-turn ledger: round counter, immutable cap, continuation handle,
pending-call FIFO. -/
structure ToolTurn where
  maxRounds : Int
  rounds : Int
  previousResponseId : Option String
  pendingCalls : List RTool

/-- Constructor, clamping the configured cap to a minimum of 1
(`Math.max(1, maxRounds)`). -/
def mkToolTurn (m : Int) : ToolTurn :=
  { maxRounds := max 1 m, rounds := 0, previousResponseId := none, pendingCalls := [] }

/-- Model of `incrementRoundOrThrow`: increment, then fail once the counter
exceeds the cap. -/
def incrementRoundOrThrow (t : ToolTurn) : Except String ToolTurn :=
  let r := t.rounds + 1
  if r > t.maxRounds then .error "Maximum number of tool rounds exceeded"
  else .ok { t with rounds := r }

/-- Iterate `incrementRoundOrThrow` n times from a given ledger. -/
def iterIncrement : ToolTurn → Nat → Except String ToolTurn
  | t, 0 => .ok t
  | t, n + 1 =>
    match incrementRoundOrThrow t with
    | .ok t1 => iterIncrement t1 n
    | .error m => .error m

/-! ## Reasoning Orchestrator, non-streaming tool-turn loop -/

/-- Extraction of one tool call from one `output` item
(`extractToolCallsFromResponse` loop body). -/
def extractOneToolCall (item : Json) : Option RTool :=
  if isOptStr (jget item "type") "tool_call" || isOptStr (jget item "type") "function_call" then
    let call := jcoalesce (jget item "tool_call") (jcoalesce (jget item "function_call") item)
    let call_id := jcoalesce (jget call "id") (jcoalesce (jget item "id") (.str ""))
    let name := jcoalesce (jpath call ["function", "name"]) (jcoalesce (jget call "name") .null)
    let directArgs := jget call "arguments"
    let nestedArgs := jpath call ["function", "arguments"]
    let picked : Option Json := match directArgs with
      | some v => some v
      | none => nestedArgs
    let argsJson : String := match picked with
      | some (.str s) => s
      | some v => if jsTruthy v then jsonStringify v else ""
      | none => ""
    if jsTruthy name && jsTruthy call_id then some ⟨call_id, name, argsJson⟩ else none
  else none

/-- Model of `extractToolCallsFromResponse`: walk
`json?.output ?? json?.response?.output ?? []`; non-array outputs yield no
calls (string iteration visits characters, none of which carry a `type`
field, and any other non-iterable aborts into the surrounding `catch`). -/
def extractToolCallsFromResponse (json : Json) : List RTool :=
  match jcoalesce (ocoalesce (jget json "output") (jpath json ["response", "output"])) (.arr []) with
  | .arr items => items.filterMap extractOneToolCall
  | _ => []

/-- Model of `collectTextFromResponse`. -/
def collectTextFromResponse (json : Json) : String × Option String :=
  let items := jcoalesce (ocoalesce (jget json "output") (jpath json ["response", "output"])) (.arr [])
  let text := match items with
    | .arr l =>
      l.foldl (fun acc it =>
        if isOptStr (jget it "type") "output_text" || isOptStr (jget it "type") "message" ||
            isOptStr (jget it "type") "text" then
          let c0text : Option Json := match jget it "content" with
            | some c =>
              (match jidx c 0 with
               | some x => jget x "text"
               | none => none)
            | none => none
          let picked := jcoalesce (ocoalesce c0text
            (ocoalesce (jget it "text") (jget it "content"))) (.str "")
          match picked with
          | .str s => acc ++ s
          | _ => acc
        else acc) ""
    | _ => ""
  let fr := ocoalesce (jget json "finish_reason") (jpath json ["response", "finish_reason"])
  let finish : Option String :=
    if isOptStr fr "stop" then some "stop"
    else if isOptStr fr "length" || isOptStr fr "max_output_tokens" then some "length"
    else none
  (text, finish)

/-- Follow-up payload built by `buildToolOutputFollowUp`: the continuation
handle plus a single `function_call_output` input item keyed by the call
id. -/
def buildToolOutputFollowUp (model : String) (prevId : String) (callId : Json)
    (toolOutputJson : String) : Json :=
  .obj [("model", .str model),
        ("previous_response_id", .str prevId),
        ("input", .arr [.obj [("type", .str "function_call_output"),
                              ("call_id", callId),
                              ("output", .str toolOutputJson)]])]

/-- Mutable state threaded through the rounds of `ReasoningService.create`. -/
structure RSState where
  lastResponseId : Json
  toolTurn : ToolTurn
  outputText : String
  finish : Option String
  usage : Usage

/-- Initial per-call orchestrator state for a configured cap. -/
def initRS (maxToolRounds : Int) : RSState :=
  { lastResponseId := .null
    toolTurn := mkToolTurn maxToolRounds
    outputText := ""
    finish := none
    usage := { prompt_tokens := 0, completion_tokens := 0, total_tokens := 0 } }

/-- Outcome of one round of the tool-turn loop: a fatal thrown error, a
follow-up request (with the recorded executor invocations of the round), or
loop exit with the final text collected. -/
inductive RoundRes where
  | fatal : String → RoundRes
  | continueR : RSState → Json → List (Json × String) → RoundRes
  | finishR : RSState → RoundRes

/-- Usage update of the non-streaming loop
(`if typeof json?.usage?.total_tokens === "number"`). -/
def usageUpdateRS (old : Usage) (json : Json) : Usage :=
  if isNumTy (jpath json ["usage", "total_tokens"]) then
    { prompt_tokens := jsNumberish (jcoalesce (jpath json ["usage", "prompt_tokens"]) (.num old.prompt_tokens))
      completion_tokens := jsNumberish (jcoalesce (jpath json ["usage", "completion_tokens"]) (.num old.completion_tokens))
      total_tokens := jsNumberish (jcoalesce (jpath json ["usage", "total_tokens"]) (.num 0)) }
  else old

/-- One round of the `for (;;)` loop of `ReasoningService.create`, after a
successful upstream response whose parsed body is `json`. `exec` is the
injected tool executor (`none` when unconfigured), modelled as a pure
function of `(name, arguments_json)`. -/
def roundStep (exec : Option (Json → String → String)) (model : String)
    (st : RSState) (json : Json) : RoundRes :=
  let lastId := jcoalesce (jget json "id") st.lastResponseId
  let usage1 := usageUpdateRS st.usage json
  match extractToolCallsFromResponse json with
  | [] =>
    let (fullText, finish) := collectTextFromResponse json
    .finishR { st with
      lastResponseId := lastId
      usage := usage1
      outputText := st.outputText ++ fullText
      finish := match finish with | some f => some f | none => st.finish }
  | call :: _ =>
    match exec with
    | none => .fatal "Tool call requested but no ToolExecutor is configured"
    | some ex =>
      match incrementRoundOrThrow st.toolTurn with
      | .error m => .fatal m
      | .ok tt1 =>
        let handle := jsToString (jor lastId (.str ""))
        let tt2 := { tt1 with previousResponseId := some handle }
        let toolOutput := ex call.name call.arguments_json
        let prevStr := match tt2.previousResponseId with
          | some s => s
          | none => ""
        let follow := buildToolOutputFollowUp model prevStr call.call_id toolOutput
        .continueR { st with lastResponseId := lastId, usage := usage1, toolTurn := tt2 }
          follow [(call.name, call.arguments_json)]

/-- The whole non-streaming loop, driven by the (oracle) list of upstream
response bodies; returns the final state or the thrown message, plus every
executor invocation in order. -/
def createLoop (exec : Option (Json → String → String)) (model : String) :
    RSState → List Json → (Except String RSState) × List (Json × String)
  | _st, [] => (.error "Upstream request failed to start", [])
  | st, json :: rest =>
    match roundStep exec model st json with
    | .fatal m => (.error m, [])
    | .finishR st1 => (.ok st1, [])
    | .continueR st1 _ invs =>
      let (r, invs2) := createLoop exec model st1 rest
      (r, invs ++ invs2)

/-! ## Theorems -/

/-- Modelled from the spec: the fixed status-coercion table of §4.4
(`404/413 → 400`, `529 → 503`, any other 5xx except `500`/`503` → `502`,
everything else unchanged), stated independently of the implementation for
the refinement comparison. -/
def specStatusTable (s : Int) : Int :=
  if s = 404 ∨ s = 413 then 400
  else if s = 529 then 503
  else if 500 ≤ s ∧ s ≠ 500 ∧ s ≠ 503 then 502
  else s

/-- Anthropic `content_block_start` event opening block `i` with type
`ty`. -/
def evStart (i : Int) (ty : String) : SSEEv :=
  ⟨"content_block_start", .obj [("index", .num i), ("content_block", .obj [("type", .str ty)])]⟩

/-- Anthropic `signature_delta` event for block `i` carrying payload `s`. -/
def evSig (i : Int) (s : String) : SSEEv :=
  ⟨"content_block_delta", .obj [("index", .num i),
    ("delta", .obj [("type", .str "signature_delta"), ("signature", .str s)])]⟩

/-- Anthropic `thinking_delta` event for block `i` carrying payload `t`. -/
def evThink (i : Int) (t : String) : SSEEv :=
  ⟨"content_block_delta", .obj [("index", .num i),
    ("delta", .obj [("type", .str "thinking_delta"), ("thinking", .str t)])]⟩

/-- Anthropic `content_block_stop` event for block `i`. -/
def evStop (i : Int) : SSEEv :=
  ⟨"content_block_stop", .obj [("index", .num i)]⟩

def isRoleF : OFrame → Bool
  | .role => true
  | _ => false

def isGuardedF : OFrame → Bool
  | .content _ => true
  | .thinkingDelta _ => true
  | _ => false

def isTermF : OFrame → Bool
  | .done => true
  | .usageSummary _ => true
  | .errFrame _ => true
  | _ => false

def emptyPayloadF : OFrame → Bool
  | .content c => isStr c ""
  | .thinkingDelta d =>
      (match jget d "thinking" with | some (.str t) => t == "" | _ => false) ||
      (match jget d "data" with | some (.str t) => t == "" | _ => false)
  | _ => false

def roleShapeOK : List OFrame → Bool
  | [] => true
  | f :: rest =>
    if isGuardedF f then false
    else if isRoleF f then rest.countP isRoleF = 0
    else roleShapeOK rest

/-- Per-step contract used by the role-ordering invariant: a step from a
role-already-sent state emits no role frame; a step that leaves the flag
unset emits neither role nor guarded (content / thinking-delta) frames; a
step that sets the flag emits the role frame first. -/
def RoleStepOK (s0 s1 : Bool) (out : List OFrame) : Prop :=
  (s0 = true → s1 = true ∧ out.countP isRoleF = 0) ∧
  (s0 = false → s1 = false → out.countP isRoleF = 0 ∧ out.countP isGuardedF = 0) ∧
  (s0 = false → s1 = true → ∃ tail, out = .role :: tail ∧ tail.countP isRoleF = 0)

/-- Events produced by the whole read loop: per text chunk, the complete
frames split off by the buffer stage, each parsed with the delimiter
re-appended. -/
def pumpEvents (p : String → Option Json) (buf : List Char) : List (List Char) → List SSEEv
  | [] => []
  | t :: ts =>
    let (segs, buf1) := feedSplit buf t
    segs.flatMap (fun seg => parseSSEEvents p (seg ++ ['\n', '\n'])) ++ pumpEvents p buf1 ts

/-- Upstream event whose recognized delta payloads are all empty, for
variant (a), with an arbitrary delta type `dt`. -/
def evEmptyDeltaA (i : Int) (dt : String) : SSEEv :=
  ⟨"content_block_delta", .obj [("index", .num i),
    ("delta", .obj [("type", .str dt), ("thinking", .str ""), ("signature", .str ""),
      ("data", .str ""), ("text", .str "")])]⟩

/-- Empty-payload data object for the variant (b)/(c) delta events. -/
def emptyDeltaData : Json := .obj [("delta", .str ""), ("text", .str "")]

/-- Frame classifier: the literal `[DONE]` frame. -/
def isDoneF : OFrame → Bool
  | .done => true
  | _ => false

/-- Frame classifier: an Error-Normalizer error frame. -/
def isErrF : OFrame → Bool
  | .errFrame _ => true
  | _ => false

/-- Frame classifier: the trailing usage-summary frame. -/
def isUsageF : OFrame → Bool
  | .usageSummary _ => true
  | _ => false

/-- Concrete response body for the tool-round witness: two function calls
in one response. -/
def witnessToolJson : Json :=
  .obj [("id", .str "resp_1"),
        ("output", .arr [
          .obj [("type", .str "function_call"), ("id", .str "call_1"),
                ("name", .str "get_weather"), ("arguments", .str "\x7b\x7d")],
          .obj [("type", .str "function_call"), ("id", .str "call_2"),
                ("name", .str "later"), ("arguments", .str "")]])]

/-! ## SSE frame rendering

A well-formed SSE frame as the upstreams emit them: one `event: <name>`
line followed by `data: <payload>` lines, terminated by a blank line. The
renderer below produces the wire text whose frame-reader parse the
partition-invariance theorem compares across byte chunkings. -/

/-- An abstract SSE frame: event name and data lines. -/
structure SSEFrame where
  name : List Char
  dls : List (List Char)

/-- No character of the line is a newline or carriage return. -/
def lineFree (l : List Char) : Bool :=
  l.all (fun c => !(c = '\n') && !(c = '\r'))

/-- Well-formed frame: nonempty, trimmed, newline-free event name and
trimmed, newline-free data lines. -/
def wfFrame (f : SSEFrame) : Bool :=
  (!f.name.isEmpty) && (trimChars f.name == f.name) && lineFree f.name &&
    f.dls.all (fun d => (trimChars d == d) && lineFree d)

/-- All frames of a stream are well-formed. -/
def wfFrames (fs : List SSEFrame) : Bool :=
  fs.all wfFrame

/-- The text of one frame without its terminating blank line. -/
def frameBody (f : SSEFrame) : List Char :=
  List.intercalate ['\n']
    (("event: ".data ++ f.name) :: f.dls.map (fun d => "data: ".data ++ d))

/-- Render frames to wire text: each frame body followed by the
`\n\n` frame delimiter, so the text is a whole number of frames. -/
def renderFrames (fs : List SSEFrame) : List Char :=
  fs.flatMap (fun f => frameBody f ++ ['\n', '\n'])

/-- The event the reader recovers from one frame: the name, and the
payload-parse of the newline-joined data lines. -/
def eventOfFrame (p : String → Option Json) (f : SSEFrame) : SSEEv :=
  ⟨String.mk f.name, parsePayload p (String.mk (List.intercalate ['\n'] f.dls))⟩

/-- No two consecutive newlines, and no trailing newline: text on which the
frame splitter cuts nothing even when more text follows. -/
def nnFree : List Char → Bool
  | [] => true
  | [c] => !(c = '\n')
  | c :: c2 :: rest => !(c = '\n' && c2 = '\n') && nnFree (c2 :: rest)

/-- An undecoded carry of the streaming decoder: empty, or strictly
shorter than the sequence length its lead byte announces. -/
def ShortPend (r : List Nat) : Prop :=
  r = [] ∨ r.length < utf8Need (r.headD 0)

/-- The byte-level frame reader of the read loop: streaming UTF-8 decode
of the chunks, then the buffered frame split feeding `parseSSELines` one
completed frame at a time. -/
def readerEvents (p : String → Option Json) (chunks : List (List Nat)) : List SSEEv :=
  pumpEvents p [] (textOf [] chunks)

/-- Concrete frames for the partition-invariance witness: a two-data-line
frame whose second payload is non-ASCII, then a bare event. -/
def sampleFrames : List SSEFrame :=
  [⟨"msg".data, ["ab".data, "é".data]⟩, ⟨"done".data, []⟩]

/-- A byte chunking of `sampleFrames`'s wire bytes that cuts between the
two bytes of the UTF-8 encoding of `é`. -/
def sampleChunks : List (List Nat) :=
  [[101, 118, 101, 110, 116, 58, 32, 109, 115, 103, 10,
    100, 97, 116, 97, 58, 32, 97, 98, 10,
    100, 97, 116, 97, 58, 32, 195],
   [169, 10, 10,
    101, 118, 101, 110, 116, 58, 32, 100, 111, 110, 101, 10, 10]]

/-- Iterating the round increment while within the cap succeeds and adds to
the counter. -/
theorem iterIncrement_ok (n : Nat) : ∀ (t : ToolTurn), t.rounds + n ≤ t.maxRounds →
    iterIncrement t n = .ok { t with rounds := t.rounds + n } := by
  induction n with
  | zero =>
    intro t _
    simp [iterIncrement]
  | succ n ih =>
    intro t h
    have hle : ¬ (t.rounds + 1 > t.maxRounds) := by omega
    simp only [iterIncrement, incrementRoundOrThrow, if_neg hle]
    rw [ih { t with rounds := t.rounds + 1 } (by simp; omega)]
    simp
    omega

/-- Once the counter would pass the cap, the next increment fails. -/
theorem iterIncrement_err (n : Nat) : ∀ (t : ToolTurn), t.rounds + n ≤ t.maxRounds →
    t.maxRounds < t.rounds + n + 1 →
    iterIncrement t (n + 1) = .error "Maximum number of tool rounds exceeded" := by
  induction n with
  | zero =>
    intro t h h2
    have : t.rounds + 1 > t.maxRounds := by omega
    simp [iterIncrement, incrementRoundOrThrow, this]
  | succ n ih =>
    intro t h h2
    have hle : ¬ (t.rounds + 1 > t.maxRounds) := by omega
    simp only [iterIncrement, incrementRoundOrThrow, if_neg hle]
    exact ih { t with rounds := t.rounds + 1 } (by simp; omega) (by simp; omega)

/-- C6: a `ToolTurn` built with any configured cap `m` (including zero and
negative values) clamps the cap to `max 1 m`; invoking
`incrementRoundOrThrow` that many times succeeds, and the next invocation
throws the round-cap error. -/
theorem toolTurn_round_cap (m : Int) :
    iterIncrement (mkToolTurn m) (max 1 m).toNat =
      .ok { maxRounds := max 1 m, rounds := max 1 m,
            previousResponseId := none, pendingCalls := [] } ∧
    iterIncrement (mkToolTurn m) ((max 1 m).toNat + 1) =
      .error "Maximum number of tool rounds exceeded" := by
  have hcast : ((max 1 m).toNat : Int) = max 1 m := by omega
  constructor
  · rw [iterIncrement_ok (max 1 m).toNat (mkToolTurn m) (by simp [mkToolTurn])]
    simp [mkToolTurn, hcast]
  · exact iterIncrement_err (max 1 m).toNat (mkToolTurn m)
      (by simp [mkToolTurn]) (by simp [mkToolTurn])


/-- C8 (amended): `coerceStatus` realizes the spec table exactly and is
idempotent (and total, being a function on all of `Int`); the provider-A
variant `mapAnthropicStatus` also realizes the table — and is idempotent —
for every non-`overloaded_error` type value, while for `overloaded_error`
the 404/413 rules still win (yielding 400, not 503) and every other status
maps to 503. -/
theorem status_coercion_table (s : Int) (t : Json) :
    coerceStatus s = specStatusTable s ∧
    coerceStatus (coerceStatus s) = coerceStatus s ∧
    (isStr t "overloaded_error" = false →
      mapAnthropicStatus s t = specStatusTable s ∧
      mapAnthropicStatus (mapAnthropicStatus s t) t = mapAnthropicStatus s t) ∧
    (isStr t "overloaded_error" = true →
      mapAnthropicStatus s t = if s = 404 ∨ s = 413 then 400 else 503) := by
  refine ⟨?_, ?_, ?_, ?_⟩
  · simp only [coerceStatus, specStatusTable]
    split_ifs <;> simp_all
  · simp only [coerceStatus]
    split_ifs <;> simp_all
  · intro h
    constructor
    · simp only [mapAnthropicStatus, specStatusTable, h]
      split_ifs <;> simp_all
    · simp only [mapAnthropicStatus, h]
      split_ifs <;> simp_all
  · intro h
    simp only [mapAnthropicStatus, h]
    split_ifs <;> simp_all

/-- Witness for the status-coercion theorem at `s = 521` with a
non-overloaded type: a bare 5xx coerces to 502 under both providers. -/
theorem status_coercion_table_witness :
    coerceStatus 521 = specStatusTable 521 ∧
    mapAnthropicStatus 521 (.str "api_error") = specStatusTable 521 := by
  have h := status_coercion_table 521 (.str "api_error")
  exact ⟨h.1, (h.2.2.1 (by decide)).1⟩

/-- C8 counterexample: the claim as stated fails for provider A with the
`overloaded_error` type — at status 404 the mapper returns 400 (the claimed
extra rule would give 503), and re-applying the mapper turns that 400 into
503, refuting idempotence. -/
theorem status_coercion_counterexample :
    mapAnthropicStatus 404 (.str "overloaded_error") = 400 ∧
    mapAnthropicStatus (mapAnthropicStatus 404 (.str "overloaded_error"))
      (.str "overloaded_error") = 503 := by
  constructor <;> decide

/-- C9: for any body that matches neither provider's recognizable error
shape and is not a raw string, `normalizeError` returns exactly the fixed
fallback (502 / `server_error` / `normalization_failure`) for every
provider and status; never throwing is captured by `normalizeError` being a
total function. -/
theorem normalize_error_fallback (body : Json)
    (h1 : recognizableOpenAI body = false)
    (h2 : recognizableAnthropic body = false)
    (h3 : isStringBody body = false) :
    ∀ (ds : Downstream) (status : Int), normalizeError ds status body = fallbackErr := by
  intro ds status
  cases ds <;> simp only [normalizeError, h1, h2, Bool.false_eq_true, if_false] <;>
    cases body <;> simp_all [isStringBody]

/-- Witness for the fallback theorem: an object body with no `error` field
normalizes to the fixed fallback. -/
theorem normalize_error_fallback_witness :
    normalizeError .openai 418 (.obj [("ok", .bool true)]) = fallbackErr :=
  normalize_error_fallback (.obj [("ok", .bool true)]) rfl rfl rfl .openai 418

/-- Folding string append distributes over the accumulator. -/
theorem strFoldl_out (l : List String) : ∀ (a : String),
    l.foldl (· ++ ·) a = a ++ l.foldl (· ++ ·) "" := by
  induction l with
  | nil => intro a; simp
  | cons x xs ih =>
    intro a
    simp only [List.foldl_cons]
    rw [ih (a ++ x), ih ("" ++ x)]
    simp [String.append_assoc]

/-- Unfolding lemma for `String.join`. -/
theorem strJoin_cons (x : String) (xs : List String) :
    String.join (x :: xs) = x ++ String.join xs := by
  simp only [String.join, List.foldl_cons]
  rw [strFoldl_out xs ("" ++ x)]
  simp

/-- Splitting an event list splits the translator output. -/
theorem runEvents_append {σ : Type} (step : σ → SSEEv → σ × List OFrame)
    (l1 : List SSEEv) : ∀ (st : σ) (l2 : List SSEEv),
    runEvents step st (l1 ++ l2) =
      ((runEvents step (runEvents step st l1).1 l2).1,
        (runEvents step st l1).2 ++ (runEvents step (runEvents step st l1).1 l2).2) := by
  induction l1 with
  | nil => intro st l2; simp [runEvents]
  | cons e es ih =>
    intro st l2
    simp only [List.cons_append, runEvents, List.append_eq]
    rw [ih]
    simp [List.append_assoc]


/-- Computation of variant (a) on an empty `signature_delta`: the empty
payload is dropped and nothing is emitted (the role chunk is already
out). -/
theorem stepA_sig_empty (st : AState) (i : Int) (h1 : st.sentRole = true) :
    stepA st (evSig i "") = ({ st with sentRole := true }, []) := by
  simp [stepA, aBlockDelta, aDeltaDispatch, evSig, rolePush, h1, jpath, jget, jcoalesce, isOptStr, jsTruthy, List.lookup]

/-- Computation of variant (a) on a nonempty `signature_delta`: the payload
is appended to that block's signature accumulator; nothing is emitted. -/
theorem stepA_sig (st : AState) (i : Int) (s : String) (h1 : st.sentRole = true)
    (hs : s ≠ "") :
    stepA st (evSig i s) =
      ({ st with
          sentRole := true
          signatureByIndex := fun j =>
            if j = i then some ((st.signatureByIndex i).getD "" ++ s)
            else st.signatureByIndex j }, []) := by
  simp [stepA, aBlockDelta, aDeltaDispatch, evSig, rolePush, h1, jpath, jget, jcoalesce, isOptStr, jsTruthy,
    List.lookup, hs, jsToString]

/-- Computation of variant (a) on `content_block_start` of a thinking
block: record the type, reset the signature accumulator. -/
theorem stepA_start (st : AState) (i : Int) :
    stepA st (evStart i "thinking") =
      ({ st with
          blockTypeByIndex := fun j => if j = i then some (.str "thinking") else st.blockTypeByIndex j
          signatureByIndex := fun j => if j = i then some "" else st.signatureByIndex j }, []) := by
  simp [stepA, aBlockStart, evStart, jpath, jget, jcoalesce, jor, jsTruthy, List.lookup]

/-- Computation of variant (a) on a nonempty `thinking_delta`: a thinking
delta frame is emitted (with empty per-frame signature). -/
theorem stepA_think (st : AState) (i : Int) (t : String) (h1 : st.sentRole = true)
    (ht : t ≠ "") :
    stepA st (evThink i t) =
      ({ st with sentRole := true }, [.thinkingDelta (thinkingObj (.str t) "")]) := by
  simp [stepA, aBlockDelta, aDeltaDispatch, evThink, rolePush, h1, jpath, jget, jcoalesce, isOptStr, jsTruthy, List.lookup, ht]

/-- Computation of variant (a) on `content_block_stop` of an open thinking
block: the done frame carries the accumulated signature and the per-index
state is deleted. -/
theorem stepA_stop (st : AState) (i : Int) (σ : String)
    (hbt : st.blockTypeByIndex i = some (.str "thinking"))
    (hsg : st.signatureByIndex i = some σ) :
    stepA st (evStop i) =
      ({ st with
          blockTypeByIndex := fun j => if j = i then none else st.blockTypeByIndex j
          signatureByIndex := fun j => if j = i then none else st.signatureByIndex j },
        [.thinkingDone (thinkingObj (.str "") σ)]) := by
  simp [stepA, aBlockStop, evStop, jpath, jget, jcoalesce, jor, jsTruthy, isStr, List.lookup, hbt, hsg]

/-- Running variant (a) over a run of `signature_delta` events accumulates
their payloads (in arrival order) into the signature map entry of that
block and emits nothing. -/
theorem runSigDeltas (sigs : List String) : ∀ (st : AState) (i : Int) (σ : String),
    st.sentRole = true → st.signatureByIndex i = some σ →
    (runEvents stepA st (sigs.map (evSig i))).2 = [] ∧
    (runEvents stepA st (sigs.map (evSig i))).1.sentRole = true ∧
    (runEvents stepA st (sigs.map (evSig i))).1.finished = st.finished ∧
    (runEvents stepA st (sigs.map (evSig i))).1.blockTypeByIndex = st.blockTypeByIndex ∧
    (runEvents stepA st (sigs.map (evSig i))).1.signatureByIndex i =
      some (σ ++ String.join sigs) := by
  induction sigs with
  | nil =>
    intro st i σ h1 h2
    simp [runEvents, String.join, h1, h2]
  | cons s rest ih =>
    intro st i σ h1 h2
    by_cases hs : s = ""
    · subst hs
      simp only [List.map_cons, runEvents, stepA_sig_empty st i h1]
      have := ih { st with sentRole := true } i σ rfl h2
      rcases this with ⟨o1, o2, o3, o4, o5⟩
      refine ⟨by simpa using o1, by simpa using o2, by simpa using o3, by simpa using o4, ?_⟩
      rw [strJoin_cons]
      simpa using o5
    · simp only [List.map_cons, runEvents, stepA_sig st i s h1 hs]
      have := ih { st with
          sentRole := true
          signatureByIndex := fun j =>
            if j = i then some ((st.signatureByIndex i).getD "" ++ s)
            else st.signatureByIndex j } i (σ ++ s) rfl (by simp [h2])
      rcases this with ⟨o1, o2, o3, o4, o5⟩
      refine ⟨by simpa using o1, by simpa using o2, by simpa using o3, by simpa using o4, ?_⟩
      rw [strJoin_cons, ← String.append_assoc]
      simpa using o5

/-- C5: in variant (a), for a block opened as `thinking` at index `i`, any
run of `signature_delta` events followed by a (nonempty) `thinking_delta`
and a `content_block_stop` on that index yields exactly a thinking-delta
frame followed by a thinking-done frame whose signature is the
concatenation, in arrival order, of the signature payloads (empty when none
arrived), and the per-index state is deleted at close. The role chunk is
assumed already emitted (`st.sentRole`), as a `message_start` always
precedes content blocks. -/
theorem anthropic_thinking_block_signature (st : AState) (i : Int) (sigs : List String)
    (t : String) (hrole : st.sentRole = true) (ht : t ≠ "") :
    (runEvents stepA st (evStart i "thinking" :: (sigs.map (evSig i) ++ [evThink i t, evStop i]))).2 =
      [.thinkingDelta (thinkingObj (.str t) ""),
       .thinkingDone (thinkingObj (.str "") (String.join sigs))] ∧
    (runEvents stepA st (evStart i "thinking" :: (sigs.map (evSig i) ++ [evThink i t, evStop i]))).1.blockTypeByIndex i = none ∧
    (runEvents stepA st (evStart i "thinking" :: (sigs.map (evSig i) ++ [evThink i t, evStop i]))).1.signatureByIndex i = none := by
  have h1 := stepA_start st i
  obtain ⟨o1, o2, o3, o4, o5⟩ := runSigDeltas sigs
    { st with
        blockTypeByIndex := fun j => if j = i then some (.str "thinking") else st.blockTypeByIndex j
        signatureByIndex := fun j => if j = i then some "" else st.signatureByIndex j }
    i "" (by simpa using hrole) (by simp)
  have hthink := stepA_think _ i t o2 ht
  have hbt3 : (runEvents stepA
      { st with
          blockTypeByIndex := fun j => if j = i then some (.str "thinking") else st.blockTypeByIndex j
          signatureByIndex := fun j => if j = i then some "" else st.signatureByIndex j }
      (sigs.map (evSig i))).1.blockTypeByIndex i = some (.str "thinking") := by
    rw [o4]; simp
  have hsg3 : (runEvents stepA
      { st with
          blockTypeByIndex := fun j => if j = i then some (.str "thinking") else st.blockTypeByIndex j
          signatureByIndex := fun j => if j = i then some "" else st.signatureByIndex j }
      (sigs.map (evSig i))).1.signatureByIndex i = some (String.join sigs) := by
    simpa using o5
  simp only [runEvents, h1, runEvents_append, o1, hthink]
  constructor
  · rw [stepA_stop _ i (String.join sigs) (by simpa using hbt3) (by simpa using hsg3)]
    simp [runEvents]
  · rw [stepA_stop _ i (String.join sigs) (by simpa using hbt3) (by simpa using hsg3)]
    simp [runEvents]

/-- Witness for the thinking-block theorem: two signature deltas "ab", "cd"
and a thinking delta "x" on block 0, from a state with the role already
announced. -/
theorem anthropic_thinking_block_signature_witness :
    (runEvents stepA { initA with sentRole := true }
        (evStart 0 "thinking" :: ((["ab", "cd"].map (evSig 0)) ++ [evThink 0 "x", evStop 0]))).2 =
      [.thinkingDelta (thinkingObj (.str "x") ""),
       .thinkingDone (thinkingObj (.str "") (String.join ["ab", "cd"]))] ∧
    (runEvents stepA { initA with sentRole := true }
        (evStart 0 "thinking" :: ((["ab", "cd"].map (evSig 0)) ++ [evThink 0 "x", evStop 0]))).1.blockTypeByIndex 0 = none ∧
    (runEvents stepA { initA with sentRole := true }
        (evStart 0 "thinking" :: ((["ab", "cd"].map (evSig 0)) ++ [evThink 0 "x", evStop 0]))).1.signatureByIndex 0 = none :=
  anthropic_thinking_block_signature { initA with sentRole := true } 0 ["ab", "cd"] "x" rfl
    (by decide)


theorem emptyPayloadF_thinkingObj (td : Json) (htd : jsTruthy td = true) (sg : String) :
    emptyPayloadF (.thinkingDelta (thinkingObj td sg)) = false := by
  cases td <;> simp_all [emptyPayloadF, thinkingObj, jget, List.lookup, jsTruthy]

theorem emptyPayloadF_redactedObj (rd : Json) (hrd : jsTruthy rd = true) :
    emptyPayloadF (.thinkingDelta (redactedObj rd)) = false := by
  cases rd <;> simp_all [emptyPayloadF, redactedObj, jget, List.lookup, jsTruthy]

theorem emptyPayloadF_content (c : Json) (hc : jsTruthy c = true) :
    emptyPayloadF (.content c) = false := by
  cases c <;> simp_all [emptyPayloadF, isStr, jsTruthy]

theorem aDeltaDispatch_basic (st : AState) (data : Json) :
    (aDeltaDispatch st data).1.finished = st.finished ∧
    (aDeltaDispatch st data).1.sentRole = st.sentRole ∧
    (aDeltaDispatch st data).1.blockTypeByIndex = st.blockTypeByIndex ∧
    (aDeltaDispatch st data).2.countP isTermF = 0 ∧
    (aDeltaDispatch st data).2.countP isRoleF = 0 ∧
    (aDeltaDispatch st data).2.countP emptyPayloadF = 0 := by
  simp only [aDeltaDispatch]
  split_ifs <;> (try split) <;>
    simp_all [isTermF, isRoleF, emptyPayloadF_thinkingObj, emptyPayloadF_redactedObj]

theorem truthy_not_empty (v : Json) (h : jsTruthy v = true) : isStr v "" = false := by
  cases v <;> simp_all [isStr, jsTruthy]

theorem stepA_basic (st : AState) (e : SSEEv) :
    (stepA st e).1.finished = st.finished ∧
    (stepA st e).2.countP isTermF = 0 ∧
    (stepA st e).2.countP emptyPayloadF = 0 := by
  rcases hDD : aDeltaDispatch st e.data with ⟨st1, thinkOut⟩
  have hd := aDeltaDispatch_basic st e.data
  rw [hDD] at hd
  simp only [stepA]
  split_ifs
  · by_cases hs : st.sentRole <;> simp [aMsgStart, rolePush, hs, isTermF, emptyPayloadF]
  · simp only [aBlockStart]
    split <;> simp [isTermF, emptyPayloadF]
  · simp only [aBlockDelta, hDD]
    by_cases hs : st.sentRole <;>
      simp_all [rolePush, isTermF, emptyPayloadF, truthy_not_empty, List.countP_append]
  · simp only [aBlockStop]
    split <;> (try split_ifs) <;>
      simp [isTermF, emptyPayloadF, thinkingObj, redactedObj, jget, List.lookup]
  · simp only [aMsgDelta]
    split_ifs <;> simp [isTermF, emptyPayloadF]
  · simp [isTermF, emptyPayloadF]

theorem stepA_role (st : AState) (e : SSEEv) :
    (st.sentRole = true → (stepA st e).1.sentRole = true ∧ (stepA st e).2.countP isRoleF = 0) ∧
    (st.sentRole = false → (stepA st e).1.sentRole = false →
        (stepA st e).2.countP isRoleF = 0 ∧ (stepA st e).2.countP isGuardedF = 0) ∧
    (st.sentRole = false → (stepA st e).1.sentRole = true →
        ∃ tail, (stepA st e).2 = .role :: tail ∧ tail.countP isRoleF = 0) := by
  rcases hDD : aDeltaDispatch st e.data with ⟨st1, thinkOut⟩
  have hd := aDeltaDispatch_basic st e.data
  rw [hDD] at hd
  simp only [stepA]
  split_ifs
  · by_cases hs : st.sentRole <;> simp [aMsgStart, rolePush, hs, isRoleF, isGuardedF]
  · simp only [aBlockStart]
    split <;> simp [isRoleF, isGuardedF]
  · simp only [aBlockDelta, hDD]
    by_cases hs : st.sentRole <;>
      simp_all [rolePush, isRoleF, List.countP_append]
    rintro a (ha | ⟨-, rfl⟩)
    · exact hd.2.2.2.2.1 a ha
    · rfl
  · simp only [aBlockStop]
    split <;> (try split_ifs) <;> simp [isRoleF, isGuardedF]
  · simp only [aMsgDelta]
    split_ifs <;> simp [isRoleF, isGuardedF]
  · simp [isRoleF, isGuardedF]

theorem stepB_basic (st : BState) (e : SSEEv) :
    (stepB st e).1.finished = st.finished ∧
    (stepB st e).2.countP isTermF = 0 ∧
    (stepB st e).2.countP emptyPayloadF = 0 := by
  simp only [stepB]
  split_ifs
  · simp [bPart, isTermF, emptyPayloadF]
  · simp [bPart, isTermF, emptyPayloadF]
  · simp only [bSummaryDelta]
    split_ifs <;>
      (by_cases hs : st.sentRole <;>
        simp_all [rolePush, isTermF, emptyPayloadF, thinkingObj, jget, List.lookup])
  · simp only [bSummaryDone]
    split_ifs <;>
      (by_cases hs : st.sentRole <;>
        simp_all [rolePush, isTermF, emptyPayloadF, thinkingObj, jget, List.lookup])
  · simp only [bOutputDelta]
    split_ifs <;>
      (by_cases hs : st.sentRole <;> simp_all [rolePush, isTermF, emptyPayloadF, isStr])
  · by_cases hs : st.sentRole <;>
      simp_all [bCompleted, rolePush, emitFinishB, isTermF, emptyPayloadF]
  · by_cases hs : st.sentRole <;>
      simp_all [bIncomplete, rolePush, emitFinishB, isTermF, emptyPayloadF]
  · simp [isTermF, emptyPayloadF]

theorem stepB_role (st : BState) (e : SSEEv) :
    (st.sentRole = true → (stepB st e).1.sentRole = true ∧ (stepB st e).2.countP isRoleF = 0) ∧
    (st.sentRole = false → (stepB st e).1.sentRole = false →
        (stepB st e).2.countP isRoleF = 0 ∧ (stepB st e).2.countP isGuardedF = 0) ∧
    (st.sentRole = false → (stepB st e).1.sentRole = true →
        ∃ tail, (stepB st e).2 = .role :: tail ∧ tail.countP isRoleF = 0) := by
  simp only [stepB]
  split_ifs
  · simp [bPart, isRoleF, isGuardedF]
  · simp [bPart, isRoleF, isGuardedF]
  · simp only [bSummaryDelta]
    split_ifs <;>
      (by_cases hs : st.sentRole <;> simp_all [rolePush, isRoleF, isGuardedF])
  · simp only [bSummaryDone]
    split_ifs <;>
      (by_cases hs : st.sentRole <;> simp_all [rolePush, isRoleF, isGuardedF])
  · simp only [bOutputDelta]
    split_ifs <;>
      (by_cases hs : st.sentRole <;> simp_all [rolePush, isRoleF, isGuardedF])
  · by_cases hs : st.sentRole <;>
      simp_all [bCompleted, rolePush, emitFinishB, isRoleF]
  · by_cases hs : st.sentRole <;>
      simp_all [bIncomplete, rolePush, emitFinishB, isRoleF]
  · simp [isRoleF, isGuardedF]

theorem stepC_basic (st : CState) (e : SSEEv) :
    (stepC st e).1.finished = st.finished ∧
    (stepC st e).2.countP isTermF = 0 ∧
    (stepC st e).2.countP emptyPayloadF = 0 := by
  simp only [stepC]
  split_ifs
  · simp only [cOutputDelta]
    split
    · split_ifs with hl
      · by_cases hs : st.sentRole <;>
          simp_all [rolePush, isTermF, emptyPayloadF, isStr] <;>
          (intro he; simp_all)
      · simp
    · simp
  · simp [cCompleted, isTermF, emptyPayloadF]
  · simp
  · simp [isTermF, emptyPayloadF]

theorem stepC_role (st : CState) (e : SSEEv) :
    (st.sentRole = true → (stepC st e).1.sentRole = true ∧ (stepC st e).2.countP isRoleF = 0) ∧
    (st.sentRole = false → (stepC st e).1.sentRole = false →
        (stepC st e).2.countP isRoleF = 0 ∧ (stepC st e).2.countP isGuardedF = 0) ∧
    (st.sentRole = false → (stepC st e).1.sentRole = true →
        ∃ tail, (stepC st e).2 = .role :: tail ∧ tail.countP isRoleF = 0) := by
  simp only [stepC]
  split_ifs
  · simp only [cOutputDelta]
    split
    · split_ifs with hl
      · by_cases hs : st.sentRole <;> simp_all [rolePush, isRoleF]
      · simp [isRoleF, isGuardedF]
    · simp [isRoleF, isGuardedF]
  · simp [cCompleted, isRoleF, isGuardedF]
  · simp [isRoleF, isGuardedF]
  · simp [isRoleF, isGuardedF]


theorem roleShapeOK_of_clean (y : List OFrame) (hR : y.countP isRoleF = 0)
    (hG : y.countP isGuardedF = 0) : roleShapeOK y = true := by
  induction y with
  | nil => rfl
  | cons f fs ih =>
    simp only [List.countP_cons] at hR hG
    have hfR : isRoleF f = false := by by_contra h; simp_all
    have hfG : isGuardedF f = false := by by_contra h; simp_all
    simp only [roleShapeOK, hfR, hfG, Bool.false_eq_true, if_false]
    exact ih (by omega) (by omega)

theorem roleShapeOK_append_clean_left (x : List OFrame) : ∀ (y : List OFrame),
    x.countP isRoleF = 0 → x.countP isGuardedF = 0 →
    roleShapeOK (x ++ y) = roleShapeOK y := by
  induction x with
  | nil => intro y _ _; rfl
  | cons f fs ih =>
    intro y hR hG
    simp only [List.countP_cons] at hR hG
    have hfR : isRoleF f = false := by by_contra h; simp_all
    have hfG : isGuardedF f = false := by by_contra h; simp_all
    simp only [List.cons_append, roleShapeOK, hfR, hfG, Bool.false_eq_true, if_false]
    exact ih y (by omega) (by omega)

theorem roleShapeOK_append_tail (x : List OFrame) : ∀ (y : List OFrame),
    roleShapeOK x = true → y.countP isRoleF = 0 → y.countP isGuardedF = 0 →
    roleShapeOK (x ++ y) = true := by
  induction x with
  | nil => intro y _ hR hG; exact roleShapeOK_of_clean y hR hG
  | cons f fs ih =>
    intro y hx hR hG
    simp only [roleShapeOK] at hx
    by_cases hfG : isGuardedF f = true
    · simp [hfG] at hx
    · by_cases hfR : isRoleF f = true
      · rw [if_neg hfG, if_pos hfR] at hx
        simp only [decide_eq_true_eq] at hx
        simp only [List.cons_append, roleShapeOK, if_neg hfG, if_pos hfR]
        simp [List.countP_append, hx, hR, hG]
      · rw [if_neg hfG, if_neg hfR] at hx
        simp only [List.cons_append, roleShapeOK, if_neg hfG, if_neg hfR]
        exact ih y hx hR hG


theorem runEvents_roleInv {σ : Type} (step : σ → SSEEv → σ × List OFrame)
    (getSent : σ → Bool)
    (hstep : ∀ st e, RoleStepOK (getSent st) (getSent (step st e).1) (step st e).2) :
    ∀ (evs : List SSEEv) (st : σ),
    (getSent st = true → getSent (runEvents step st evs).1 = true ∧
        (runEvents step st evs).2.countP isRoleF = 0) ∧
    (getSent st = false →
      (getSent (runEvents step st evs).1 = false →
          (runEvents step st evs).2.countP isRoleF = 0 ∧
          (runEvents step st evs).2.countP isGuardedF = 0) ∧
      (getSent (runEvents step st evs).1 = true →
          roleShapeOK (runEvents step st evs).2 = true ∧
          (runEvents step st evs).2.countP isRoleF = 1)) := by
  intro evs
  induction evs with
  | nil =>
    intro st
    refine ⟨fun h => ⟨h, rfl⟩, fun h => ⟨fun _ => ⟨rfl, rfl⟩, fun h2 => ?_⟩⟩
    rw [show (runEvents step st []).1 = st from rfl] at h2
    rw [h] at h2
    cases h2
  | cons e es ih =>
    intro st
    obtain ⟨A1, B1, C1⟩ := hstep st e
    have hrun : runEvents step st (e :: es) =
        ((runEvents step (step st e).1 es).1,
         (step st e).2 ++ (runEvents step (step st e).1 es).2) := by
      simp [runEvents]
    rw [hrun]
    obtain ⟨A2, BC2⟩ := ih (step st e).1
    by_cases hs : getSent st = true
    · obtain ⟨hs1, ho1⟩ := A1 hs
      obtain ⟨hs2, ho2⟩ := A2 hs1
      refine ⟨fun _ => ⟨hs2, ?_⟩, fun hf => absurd hs (by simp [hf])⟩
      simp [List.countP_append, ho1, ho2]
    · have hs0 : getSent st = false := by revert hs; cases getSent st <;> simp
      refine ⟨fun ht => absurd ht (by simp [hs0]), fun _ => ⟨?_, ?_⟩⟩
      · -- final flag still unset
        intro hfin
        by_cases hs1 : getSent (step st e).1 = true
        · obtain ⟨hs2, _⟩ := A2 hs1
          rw [hfin] at hs2; cases hs2
        · have hs1f : getSent (step st e).1 = false := by
            revert hs1; cases getSent (step st e).1 <;> simp
          obtain ⟨ho1R, ho1G⟩ := B1 hs0 hs1f
          obtain ⟨ho2R, ho2G⟩ := (BC2 hs1f).1 hfin
          simp [List.countP_append, ho1R, ho1G, ho2R, ho2G]
      · -- final flag set: role first, at most once
        intro hfin
        by_cases hs1 : getSent (step st e).1 = true
        · obtain ⟨tail, hout, htail⟩ := C1 hs0 hs1
          obtain ⟨hs2, ho2⟩ := A2 hs1
          rw [hout]
          constructor
          · simp [roleShapeOK, isRoleF, isGuardedF, List.countP_append, htail, ho2]
          · simp [List.countP_cons, List.countP_append, htail, ho2, isRoleF]
        · have hs1f : getSent (step st e).1 = false := by
            revert hs1; cases getSent (step st e).1 <;> simp
          obtain ⟨ho1R, ho1G⟩ := B1 hs0 hs1f
          obtain ⟨hshape, hcount⟩ := (BC2 hs1f).2 hfin
          constructor
          · rw [roleShapeOK_append_clean_left _ _ ho1R ho1G]
            exact hshape
          · simp [List.countP_append, ho1R, hcount]


/-- Handling the split-off segments equals handling their concatenated
event list. -/
theorem runSegs_eq_runEvents {σ : Type} (step : σ → SSEEv → σ × List OFrame)
    (p : String → Option Json) (segs : List (List Char)) : ∀ (st : σ),
    runSegs step p st segs =
      runEvents step st (segs.flatMap (fun seg => parseSSEEvents p (seg ++ ['\n', '\n']))) := by
  induction segs with
  | nil => intro st; rfl
  | cons seg rest ih =>
    intro st
    simp only [runSegs, List.flatMap_cons, runEvents_append, ih]

/-- The read-loop fold equals one event-list fold over `pumpEvents`. -/
theorem pumpTexts_eq_runEvents {σ : Type} (step : σ → SSEEv → σ × List OFrame)
    (p : String → Option Json) (ts : List (List Char)) : ∀ (st : σ) (buf : List Char),
    (pumpTexts step p st buf ts).1 = (runEvents step st (pumpEvents p buf ts)).1 ∧
    (pumpTexts step p st buf ts).2.2 = (runEvents step st (pumpEvents p buf ts)).2 := by
  induction ts with
  | nil => intro st buf; exact ⟨rfl, rfl⟩
  | cons t rest ih =>
    intro st buf
    simp only [pumpTexts, pumpEvents, runEvents_append, runSegs_eq_runEvents]
    obtain ⟨ih1, ih2⟩ := ih (runEvents step st
      ((feedSplit buf t).1.flatMap (fun seg => parseSSEEvents p (seg ++ ['\n', '\n'])))).1
      (feedSplit buf t).2
    exact ⟨ih1, by rw [ih2]⟩

/-- Variant (a) satisfies the per-step role contract. -/
theorem stepA_roleOK (st : AState) (e : SSEEv) :
    RoleStepOK st.sentRole ((stepA st e).1.sentRole) (stepA st e).2 :=
  stepA_role st e

/-- Variant (b) satisfies the per-step role contract. -/
theorem stepB_roleOK (st : BState) (e : SSEEv) :
    RoleStepOK st.sentRole ((stepB st e).1.sentRole) (stepB st e).2 :=
  stepB_role st e

/-- Variant (c) satisfies the per-step role contract. -/
theorem stepC_roleOK (st : CState) (e : SSEEv) :
    RoleStepOK st.sentRole ((stepC st e).1.sentRole) (stepC st e).2 :=
  stepC_role st e

/-- Role invariant of a full event run from a role-not-yet-sent state. -/
theorem eventRunRoleOK {σ : Type} (step : σ → SSEEv → σ × List OFrame)
    (getSent : σ → Bool)
    (hstep : ∀ st e, RoleStepOK (getSent st) (getSent (step st e).1) (step st e).2)
    (init : σ) (hinit : getSent init = false) (evs : List SSEEv) :
    roleShapeOK (runEvents step init evs).2 = true ∧
    (runEvents step init evs).2.countP isRoleF ≤ 1 := by
  obtain ⟨_, B⟩ := runEvents_roleInv step getSent hstep evs init
  by_cases hf : getSent (runEvents step init evs).1 = true
  · obtain ⟨hsh, hc⟩ := (B hinit).2 hf
    exact ⟨hsh, by omega⟩
  · have hff : getSent (runEvents step init evs).1 = false := by
      revert hf; cases getSent (runEvents step init evs).1 <;> simp
    obtain ⟨hcr, hcg⟩ := (B hinit).1 hff
    exact ⟨roleShapeOK_of_clean _ hcr hcg, by omega⟩

/-- The end-of-stream / failure frames contain no role, content or
thinking-delta frames, for each of the three translators. -/
theorem endFrames_clean (ds : Downstream) (fin : Bool) (stc : CState) :
    ((catchFramesAB ds).countP isRoleF = 0 ∧ (catchFramesAB ds).countP isGuardedF = 0) ∧
    ((emitDoneAB fin).countP isRoleF = 0 ∧ (emitDoneAB fin).countP isGuardedF = 0) ∧
    ((emitDoneC stc).countP isRoleF = 0 ∧ (emitDoneC stc).countP isGuardedF = 0) := by
  refine ⟨⟨rfl, rfl⟩, ?_, ?_⟩
  · unfold emitDoneAB
    split_ifs <;> simp [isRoleF, isGuardedF]
  · unfold emitDoneC
    split_ifs <;> simp [isRoleF, isGuardedF]

/-- Role invariant carried over the appended terminal frames. -/
theorem fullRunRoleOK (core ends : List OFrame)
    (h1 : roleShapeOK core = true) (h2 : core.countP isRoleF ≤ 1)
    (hR : ends.countP isRoleF = 0) (hG : ends.countP isGuardedF = 0) :
    roleShapeOK (core ++ ends) = true ∧ (core ++ ends).countP isRoleF ≤ 1 := by
  refine ⟨roleShapeOK_append_tail core ends h1 hR hG, ?_⟩
  simp [List.countP_append, hR]
  omega

/-- C1 (amended): in every translator variant the role-announcement chunk
appears at most once in the output stream and precedes every content chunk
and every thinking/redacted-thinking *delta* wrapper (`roleShapeOK`), both
at the event level (any upstream event sequence) and for the full byte
stream on every completion path. (As stated, the claim is refuted by the
counterexample below: variant (b) part-lifecycle wrappers — and variant (a)
block-close wrappers — are emitted without a role push, so a thinking
wrapper can precede the role chunk or appear in a stream that never
announces the role.) -/
theorem role_chunk_at_most_once_before_guarded :
    (∀ evs : List SSEEv,
      (roleShapeOK (runEvents stepA initA evs).2 = true ∧
        (runEvents stepA initA evs).2.countP isRoleF ≤ 1) ∧
      (roleShapeOK (runEvents stepB initB evs).2 = true ∧
        (runEvents stepB initB evs).2.countP isRoleF ≤ 1) ∧
      (roleShapeOK (runEvents stepC initC evs).2 = true ∧
        (runEvents stepC initC evs).2.countP isRoleF ≤ 1)) ∧
    (∀ (p : String → Option Json) (ds : Downstream) (chunks : List (List Nat)) (fails : Bool),
      (roleShapeOK (runA p ds chunks fails) = true ∧
        (runA p ds chunks fails).countP isRoleF ≤ 1) ∧
      (roleShapeOK (runB p ds chunks fails) = true ∧
        (runB p ds chunks fails).countP isRoleF ≤ 1) ∧
      (roleShapeOK (runC p chunks fails) = true ∧
        (runC p chunks fails).countP isRoleF ≤ 1)) := by
  constructor
  · intro evs
    exact ⟨eventRunRoleOK stepA (fun s => s.sentRole) stepA_roleOK initA rfl evs,
           eventRunRoleOK stepB (fun s => s.sentRole) stepB_roleOK initB rfl evs,
           eventRunRoleOK stepC (fun s => s.sentRole) stepC_roleOK initC rfl evs⟩
  · intro p ds chunks fails
    refine ⟨?_, ?_, ?_⟩
    · rcases hP : pumpTexts stepA p initA [] (textOf [] chunks) with ⟨stf, buff, out⟩
      have hE := pumpTexts_eq_runEvents stepA p (textOf [] chunks) initA []
      rw [hP] at hE
      have hcore := eventRunRoleOK stepA (fun s => s.sentRole) stepA_roleOK initA rfl
        (pumpEvents p [] (textOf [] chunks))
      rw [← hE.2] at hcore
      have hrunA : runA p ds chunks fails =
          out ++ (if fails then catchFramesAB ds else emitDoneAB stf.finished) := by
        simp [runA, hP]
      rw [hrunA]
      obtain ⟨⟨c1, c2⟩, ⟨d1, d2⟩, _⟩ := endFrames_clean ds stf.finished initC
      exact fullRunRoleOK out _ hcore.1 hcore.2
        (by split_ifs <;> assumption) (by split_ifs <;> assumption)
    · rcases hP : pumpTexts stepB p initB [] (textOf [] chunks) with ⟨stf, buff, out⟩
      have hE := pumpTexts_eq_runEvents stepB p (textOf [] chunks) initB []
      rw [hP] at hE
      have hcore := eventRunRoleOK stepB (fun s => s.sentRole) stepB_roleOK initB rfl
        (pumpEvents p [] (textOf [] chunks))
      rw [← hE.2] at hcore
      have hrunB : runB p ds chunks fails =
          out ++ (if fails then catchFramesAB ds else emitDoneAB stf.finished) := by
        simp [runB, hP]
      rw [hrunB]
      obtain ⟨⟨c1, c2⟩, ⟨d1, d2⟩, _⟩ := endFrames_clean ds stf.finished initC
      exact fullRunRoleOK out _ hcore.1 hcore.2
        (by split_ifs <;> assumption) (by split_ifs <;> assumption)
    · rcases hP : pumpTexts stepC p initC [] (textOf [] chunks) with ⟨stf, buff, out⟩
      have hE := pumpTexts_eq_runEvents stepC p (textOf [] chunks) initC []
      rw [hP] at hE
      have hcore := eventRunRoleOK stepC (fun s => s.sentRole) stepC_roleOK initC rfl
        (pumpEvents p [] (textOf [] chunks))
      rw [← hE.2] at hcore
      have hrunC : runC p chunks fails = out ++ emitDoneC stf := by
        simp [runC, hP]
      rw [hrunC]
      obtain ⟨_, _, e1, e2⟩ := endFrames_clean ds stf.finished stf
      exact fullRunRoleOK out _ hcore.1 hcore.2 e1 e2

/-- C1 counterexample: a stream whose only upstream event is
`response.reasoning_summary_part.added` makes variant (b) emit a thinking
part wrapper and no role chunk at all — the role chunk does not appear
exactly once, and a thinking wrapper is not preceded by it. -/
theorem role_chunk_counterexample :
    (runEvents stepB initB [⟨"response.reasoning_summary_part.added", .null⟩]).2 =
      [.thinkingPartAdded (Json.obj [("type", .str "thinking"), ("thinking", .str ""),
        ("signature", .str "\x7b\x22item_id\x22:\x22\x22,\x22summary_index\x22:null\x7d")])] ∧
    (runEvents stepB initB [⟨"response.reasoning_summary_part.added", .null⟩]).2.countP isRoleF = 0 := by
  constructor <;> rfl

/-- A frame-class count that is zero for every step is zero for the whole
event run. -/
theorem runEvents_countP_zero {σ : Type} (step : σ → SSEEv → σ × List OFrame)
    (f : OFrame → Bool) (hstep : ∀ st e, (step st e).2.countP f = 0) :
    ∀ (evs : List SSEEv) (st : σ), (runEvents step st evs).2.countP f = 0 := by
  intro evs
  induction evs with
  | nil => intro st; rfl
  | cons e es ih =>
    intro st
    simp only [runEvents, List.countP_append, hstep st e, ih (step st e).1]


/-- C10 (amended): empty extracted payloads are dropped — no translator
ever emits a content chunk with empty `delta.content` nor a
thinking/redacted-thinking delta wrapper with an empty `thinking`/`data`
field (`emptyPayloadF`), at the event level and for full byte streams;
an empty recognized delta event produces no frame at all in variants (b)
and (c), while in variant (a) it still triggers the one-time
role-announcement chunk (the role push precedes the payload check there),
which is what refutes the claim as stated. -/
theorem empty_payloads_dropped :
    (∀ evs : List SSEEv,
      (runEvents stepA initA evs).2.countP emptyPayloadF = 0 ∧
      (runEvents stepB initB evs).2.countP emptyPayloadF = 0 ∧
      (runEvents stepC initC evs).2.countP emptyPayloadF = 0) ∧
    (∀ (p : String → Option Json) (ds : Downstream) (chunks : List (List Nat)) (fails : Bool),
      (runA p ds chunks fails).countP emptyPayloadF = 0 ∧
      (runB p ds chunks fails).countP emptyPayloadF = 0 ∧
      (runC p chunks fails).countP emptyPayloadF = 0) ∧
    (∀ (st : AState) (i : Int) (dt : String),
      (stepA st (evEmptyDeltaA i dt)).2 = if st.sentRole then [] else [.role]) ∧
    (∀ st : BState,
      (stepB st ⟨"response.reasoning_summary_text.delta", emptyDeltaData⟩).2 = [] ∧
      (stepB st ⟨"response.output_text.delta", emptyDeltaData⟩).2 = []) ∧
    (∀ st : CState, (stepC st ⟨"response.output_text.delta", emptyDeltaData⟩).2 = []) := by
  have hA := runEvents_countP_zero stepA emptyPayloadF (fun st e => (stepA_basic st e).2.2)
  have hB := runEvents_countP_zero stepB emptyPayloadF (fun st e => (stepB_basic st e).2.2)
  have hC := runEvents_countP_zero stepC emptyPayloadF (fun st e => (stepC_basic st e).2.2)
  refine ⟨fun evs => ⟨hA evs initA, hB evs initB, hC evs initC⟩, ?_, ?_, ?_, ?_⟩
  · intro p ds chunks fails
    have hendAB : ∀ fin : Bool,
        (if fails then catchFramesAB ds else emitDoneAB fin).countP emptyPayloadF = 0 := by
      intro fin
      split_ifs
      · rfl
      · unfold emitDoneAB; split_ifs <;> rfl
    have hendC : ∀ stc : CState, (emitDoneC stc).countP emptyPayloadF = 0 := by
      intro stc
      unfold emitDoneC; split_ifs <;> rfl
    refine ⟨?_, ?_, ?_⟩
    · rcases hP : pumpTexts stepA p initA [] (textOf [] chunks) with ⟨stf, buff, out⟩
      have hE := pumpTexts_eq_runEvents stepA p (textOf [] chunks) initA []
      rw [hP] at hE
      have : runA p ds chunks fails =
          out ++ (if fails then catchFramesAB ds else emitDoneAB stf.finished) := by
        simp [runA, hP]
      rw [this, List.countP_append]
      have hout : out = (runEvents stepA initA (pumpEvents p [] (textOf [] chunks))).2 := hE.2
      rw [hout, hA, hendAB]
    · rcases hP : pumpTexts stepB p initB [] (textOf [] chunks) with ⟨stf, buff, out⟩
      have hE := pumpTexts_eq_runEvents stepB p (textOf [] chunks) initB []
      rw [hP] at hE
      have : runB p ds chunks fails =
          out ++ (if fails then catchFramesAB ds else emitDoneAB stf.finished) := by
        simp [runB, hP]
      rw [this, List.countP_append]
      have hout : out = (runEvents stepB initB (pumpEvents p [] (textOf [] chunks))).2 := hE.2
      rw [hout, hB, hendAB]
    · rcases hP : pumpTexts stepC p initC [] (textOf [] chunks) with ⟨stf, buff, out⟩
      have hE := pumpTexts_eq_runEvents stepC p (textOf [] chunks) initC []
      rw [hP] at hE
      have : runC p chunks fails = out ++ emitDoneC stf := by
        simp [runC, hP]
      rw [this, List.countP_append]
      have hout : out = (runEvents stepC initC (pumpEvents p [] (textOf [] chunks))).2 := hE.2
      rw [hout, hC, hendC]
  · intro st i dt
    by_cases hs : st.sentRole <;>
      simp [stepA, aBlockDelta, aDeltaDispatch, evEmptyDeltaA, rolePush, hs, jpath, jget,
        jcoalesce, isOptStr, jsTruthy, List.lookup]
  · intro st
    constructor <;>
      simp [stepB, bSummaryDelta, bOutputDelta, emptyDeltaData, jor, jsTruthy, jget,
        isStrTy, asStrD, List.lookup, containsSub, subSearch, List.isPrefixOf]
  · intro st
    simp [stepC, cOutputDelta, emptyDeltaData, jget, jcoalesce, List.lookup]

/-- C10 counterexample: in variant (a), a recognized `text_delta` event
with an empty payload arriving first still produces an output frame — the
role-announcement chunk — refuting "produces no output frame at all". -/
theorem empty_payload_counterexample :
    (runEvents stepA initA [evEmptyDeltaA 0 "text_delta"]).2 = [.role] := by
  rfl


/-- A state observation preserved by every step is preserved by the run. -/
theorem runEvents_preserves {σ α : Type} (step : σ → SSEEv → σ × List OFrame)
    (g : σ → α) (hstep : ∀ st e, g (step st e).1 = g st) :
    ∀ (evs : List SSEEv) (st : σ), g (runEvents step st evs).1 = g st := by
  intro evs
  induction evs with
  | nil => intro st; rfl
  | cons e es ih =>
    intro st
    simp only [runEvents]
    rw [ih (step st e).1, hstep st e]

/-- Event runs of the translators emit no `[DONE]`, usage-summary or error
frames (those only come from the end-of-stream / catch stage). -/
theorem eventRun_no_terminal {σ : Type} (step : σ → SSEEv → σ × List OFrame)
    (hstep : ∀ st e, (step st e).2.countP isTermF = 0)
    (evs : List SSEEv) (st : σ) :
    (runEvents step st evs).2.countP isDoneF = 0 ∧
    (runEvents step st evs).2.countP isErrF = 0 ∧
    (runEvents step st evs).2.countP isUsageF = 0 := by
  have h := runEvents_countP_zero step isTermF hstep evs st
  rw [List.countP_eq_zero] at h
  refine ⟨?_, ?_, ?_⟩ <;>
    (rw [List.countP_eq_zero]
     intro a ha
     have := h a ha
     cases a <;> simp_all [isTermF, isDoneF, isErrF, isUsageF])

/-- Decomposition of the variant-(a) stream into the event-run output and
the terminal frames. -/
theorem runA_eq (p : String → Option Json) (ds : Downstream) (chunks : List (List Nat))
    (fails : Bool) :
    runA p ds chunks fails =
      (runEvents stepA initA (pumpEvents p [] (textOf [] chunks))).2 ++
        (if fails then catchFramesAB ds
         else emitDoneAB ((runEvents stepA initA (pumpEvents p [] (textOf [] chunks))).1.finished)) := by
  rcases hP : pumpTexts stepA p initA [] (textOf [] chunks) with ⟨stf, buff, out⟩
  have hE := pumpTexts_eq_runEvents stepA p (textOf [] chunks) initA []
  rw [hP] at hE
  have h1 : stf = (runEvents stepA initA (pumpEvents p [] (textOf [] chunks))).1 := hE.1
  have h2 : out = (runEvents stepA initA (pumpEvents p [] (textOf [] chunks))).2 := hE.2
  simp [runA, hP, h1, h2]

/-- Decomposition of the variant-(b) stream. -/
theorem runB_eq (p : String → Option Json) (ds : Downstream) (chunks : List (List Nat))
    (fails : Bool) :
    runB p ds chunks fails =
      (runEvents stepB initB (pumpEvents p [] (textOf [] chunks))).2 ++
        (if fails then catchFramesAB ds
         else emitDoneAB ((runEvents stepB initB (pumpEvents p [] (textOf [] chunks))).1.finished)) := by
  rcases hP : pumpTexts stepB p initB [] (textOf [] chunks) with ⟨stf, buff, out⟩
  have hE := pumpTexts_eq_runEvents stepB p (textOf [] chunks) initB []
  rw [hP] at hE
  have h1 : stf = (runEvents stepB initB (pumpEvents p [] (textOf [] chunks))).1 := hE.1
  have h2 : out = (runEvents stepB initB (pumpEvents p [] (textOf [] chunks))).2 := hE.2
  simp [runB, hP, h1, h2]

/-- Decomposition of the variant-(c) stream. -/
theorem runC_eq (p : String → Option Json) (chunks : List (List Nat)) (fails : Bool) :
    runC p chunks fails =
      (runEvents stepC initC (pumpEvents p [] (textOf [] chunks))).2 ++
        emitDoneC (runEvents stepC initC (pumpEvents p [] (textOf [] chunks))).1 := by
  rcases hP : pumpTexts stepC p initC [] (textOf [] chunks) with ⟨stf, buff, out⟩
  have hE := pumpTexts_eq_runEvents stepC p (textOf [] chunks) initC []
  rw [hP] at hE
  have h1 : stf = (runEvents stepC initC (pumpEvents p [] (textOf [] chunks))).1 := hE.1
  have h2 : out = (runEvents stepC initC (pumpEvents p [] (textOf [] chunks))).2 := hE.2
  simp [runC, hP, h1, h2]

/-- The `finished` flag stays `false` throughout event handling, in every
variant (only `emitDone` sets it). -/
theorem finished_stays_false (evs : List SSEEv) :
    (runEvents stepA initA evs).1.finished = false ∧
    (runEvents stepB initB evs).1.finished = false ∧
    (runEvents stepC initC evs).1.finished = false :=
  ⟨runEvents_preserves stepA (fun s => s.finished) (fun st e => (stepA_basic st e).1) evs initA,
   runEvents_preserves stepB (fun s => s.finished) (fun st e => (stepB_basic st e).1) evs initB,
   runEvents_preserves stepC (fun s => s.finished) (fun st e => (stepC_basic st e).1) evs initC⟩

/-- C3: on every completion path (normal end-of-stream and upstream
failure), the literal `[DONE]` frame is emitted exactly once and is the
last frame in variants (a) and (b); in the legacy variant (c) it is
emitted exactly once and is immediately followed by exactly one trailing
usage-summary frame, which is last. -/
theorem done_emitted_once_last (p : String → Option Json) (ds : Downstream)
    (chunks : List (List Nat)) (fails : Bool) :
    (∃ pre, runA p ds chunks fails = pre ++ [.done] ∧ pre.countP isDoneF = 0) ∧
    (∃ pre, runB p ds chunks fails = pre ++ [.done] ∧ pre.countP isDoneF = 0) ∧
    (∃ pre u, runC p chunks fails = pre ++ [.done, .usageSummary u] ∧
      pre.countP isDoneF = 0 ∧ pre.countP isUsageF = 0) := by
  obtain ⟨hfA, hfB, hfC⟩ := finished_stays_false (pumpEvents p [] (textOf [] chunks))
  obtain ⟨hdA, heA, huA⟩ := eventRun_no_terminal stepA (fun st e => (stepA_basic st e).2.1)
    (pumpEvents p [] (textOf [] chunks)) initA
  obtain ⟨hdB, heB, huB⟩ := eventRun_no_terminal stepB (fun st e => (stepB_basic st e).2.1)
    (pumpEvents p [] (textOf [] chunks)) initB
  obtain ⟨hdC, heC, huC⟩ := eventRun_no_terminal stepC (fun st e => (stepC_basic st e).2.1)
    (pumpEvents p [] (textOf [] chunks)) initC
  refine ⟨?_, ?_, ?_⟩
  · rw [runA_eq, hfA]
    by_cases hf : fails
    · refine ⟨(runEvents stepA initA (pumpEvents p [] (textOf [] chunks))).2 ++
        [.errFrame (normalizeError ds 502 (.str "stream terminated"))], ?_, ?_⟩
      · simp [hf, catchFramesAB]
      · simp [List.countP_append, hdA, isDoneF]
    · exact ⟨(runEvents stepA initA (pumpEvents p [] (textOf [] chunks))).2,
        by simp [hf, emitDoneAB], hdA⟩
  · rw [runB_eq, hfB]
    by_cases hf : fails
    · refine ⟨(runEvents stepB initB (pumpEvents p [] (textOf [] chunks))).2 ++
        [.errFrame (normalizeError ds 502 (.str "stream terminated"))], ?_, ?_⟩
      · simp [hf, catchFramesAB]
      · simp [List.countP_append, hdB, isDoneF]
    · exact ⟨(runEvents stepB initB (pumpEvents p [] (textOf [] chunks))).2,
        by simp [hf, emitDoneAB], hdB⟩
  · rw [runC_eq]
    refine ⟨(runEvents stepC initC (pumpEvents p [] (textOf [] chunks))).2,
      (runEvents stepC initC (pumpEvents p [] (textOf [] chunks))).1.usage, ?_, hdC, huC⟩
    simp [emitDoneC, hfC]

/-- C2 (amended): when the upstream read fails mid-stream, variants (a) and
(b) enqueue exactly one Error-Normalizer-rendered error frame — for the
fixed 502 "stream terminated" input — immediately before the terminal
`[DONE]`; the legacy variant (c) enqueues no error frame at all (it simply
emits `[DONE]` and the usage summary). In every variant the failure is
handled in-band: the run functions are total and always produce a
terminated stream, never a propagated fault. -/
theorem stream_failure_error_frame (p : String → Option Json) (ds : Downstream)
    (chunks : List (List Nat)) :
    (∃ pre, runA p ds chunks true =
        pre ++ [.errFrame (normalizeError ds 502 (.str "stream terminated")), .done] ∧
      pre.countP isErrF = 0) ∧
    (∃ pre, runB p ds chunks true =
        pre ++ [.errFrame (normalizeError ds 502 (.str "stream terminated")), .done] ∧
      pre.countP isErrF = 0) ∧
    (runC p chunks true).countP isErrF = 0 := by
  obtain ⟨hdA, heA, huA⟩ := eventRun_no_terminal stepA (fun st e => (stepA_basic st e).2.1)
    (pumpEvents p [] (textOf [] chunks)) initA
  obtain ⟨hdB, heB, huB⟩ := eventRun_no_terminal stepB (fun st e => (stepB_basic st e).2.1)
    (pumpEvents p [] (textOf [] chunks)) initB
  obtain ⟨hdC, heC, huC⟩ := eventRun_no_terminal stepC (fun st e => (stepC_basic st e).2.1)
    (pumpEvents p [] (textOf [] chunks)) initC
  refine ⟨?_, ?_, ?_⟩
  · rw [runA_eq]
    exact ⟨(runEvents stepA initA (pumpEvents p [] (textOf [] chunks))).2,
      by simp [catchFramesAB], heA⟩
  · rw [runB_eq]
    exact ⟨(runEvents stepB initB (pumpEvents p [] (textOf [] chunks))).2,
      by simp [catchFramesAB], heB⟩
  · rw [runC_eq, List.countP_append, heC]
    unfold emitDoneC
    split_ifs <;> rfl

/-- C2 counterexample: the legacy variant emits no error frame on a failed
read — an empty upstream that then fails yields only `[DONE]` plus the
zero usage summary, refuting "every translator variant enqueues exactly one
error frame". -/
theorem stream_failure_counterexample :
    runC (fun _ => none) [] true = [.done, .usageSummary ⟨0, 0, 0⟩] ∧
    (runC (fun _ => none) [] true).countP isErrF = 0 := by
  constructor <;> rfl

/-- C7: in the non-streaming tool-turn loop, whenever the response body
yields at least one extracted tool call (and an executor is configured and
the round cap not yet exceeded), exactly one executor invocation occurs for
that round — with the first extracted call only, later calls being dropped —
and the follow-up request carries the recorded continuation handle
(`previous_response_id`, the `String(...)`-coerced response id) and a
single `function_call_output` input item keyed by that call id. -/
theorem tool_round_uses_first_call (ex : Json → String → String) (model : String)
    (st : RSState) (json : Json) (c : RTool) (rest : List RTool)
    (hcalls : extractToolCallsFromResponse json = c :: rest)
    (hcap : st.toolTurn.rounds + 1 ≤ st.toolTurn.maxRounds) :
    roundStep (some ex) model st json =
      .continueR
        { st with
            lastResponseId := jcoalesce (jget json "id") st.lastResponseId
            usage := usageUpdateRS st.usage json
            toolTurn := { st.toolTurn with
                rounds := st.toolTurn.rounds + 1
                previousResponseId :=
                  some (jsToString (jor (jcoalesce (jget json "id") st.lastResponseId) (.str ""))) } }
        (buildToolOutputFollowUp model
          (jsToString (jor (jcoalesce (jget json "id") st.lastResponseId) (.str "")))
          c.call_id (ex c.name c.arguments_json))
        [(c.name, c.arguments_json)] := by
  have hinc : incrementRoundOrThrow st.toolTurn =
      .ok { st.toolTurn with rounds := st.toolTurn.rounds + 1 } := by
    unfold incrementRoundOrThrow
    rw [if_neg (by omega)]
  simp only [roundStep, hcalls, hinc]


/-- Witness for the tool-round theorem: a response with two tool calls
invokes the executor once with the first call and builds the follow-up
keyed by `call_1`; the second call is dropped. -/
theorem tool_round_uses_first_call_witness :
    roundStep (some (fun _ _ => "42")) "gpt-5" (initRS 4) witnessToolJson =
      .continueR
        { (initRS 4) with
            lastResponseId := jcoalesce (jget witnessToolJson "id") (initRS 4).lastResponseId
            usage := usageUpdateRS (initRS 4).usage witnessToolJson
            toolTurn := { (initRS 4).toolTurn with
                rounds := (initRS 4).toolTurn.rounds + 1
                previousResponseId :=
                  some (jsToString (jor (jcoalesce (jget witnessToolJson "id")
                    (initRS 4).lastResponseId) (.str ""))) } }
        (buildToolOutputFollowUp "gpt-5"
          (jsToString (jor (jcoalesce (jget witnessToolJson "id") (initRS 4).lastResponseId)
            (.str "")))
          (.str "call_1") ((fun (_ : Json) (_ : String) => "42") (.str "get_weather") "\x7b\x7d"))
        [(.str "get_weather", "\x7b\x7d")] :=
  tool_round_uses_first_call (fun _ _ => "42") "gpt-5" (initRS 4) witnessToolJson
    ⟨.str "call_1", .str "get_weather", "\x7b\x7d"⟩
    [⟨.str "call_2", .str "later", ""⟩] rfl (by decide)

/-- The frame split never returns an empty list of segments. -/
theorem splitNN_ne_nil (l : List Char) : splitNN l ≠ [] := by
  rw [splitNN.eq_def]
  split
  · simp
  · simp
  · split <;> simp

/-- A single-segment split means the input contained no frame delimiter:
the segment is the whole input. -/
theorem splitNN_singleton : ∀ (l : List Char) (s : List Char), splitNN l = [s] → s = l := by
  intro l
  induction l using splitNN.induct with
  | case1 =>
    intro s h
    simp [splitNN] at h
    exact h
  | case2 rest ih =>
    intro s h
    simp [splitNN] at h
    exact absurd h.2 (splitNN_ne_nil rest)
  | case3 c rest hne s0 ss0 hsplit ih =>
    intro s h
    simp [splitNN, hsplit] at h
    obtain ⟨h1, h2⟩ := h
    subst h1
    subst h2
    rw [ih s0 hsplit]
  | case4 c rest hne hsplit ih =>
    exact absurd hsplit (splitNN_ne_nil rest)

/-- Dropping the last element of a cons with nonempty tail. -/
theorem dropLast_cons_ne {α : Type} (a : α) (l : List α) (h : l ≠ []) :
    (a :: l).dropLast = a :: l.dropLast := by
  cases l
  · exact absurd rfl h
  · rfl

/-- Last element (with default) of a cons with nonempty tail. -/
theorem getLastD_cons_ne {α : Type} (a : α) (l : List α) (d : α) (h : l ≠ []) :
    (a :: l).getLastD d = l.getLastD d := by
  cases l
  · exact absurd rfl h
  · simp [List.getLastD]

/-- Unfolding of `splitNN` on a cons that does not begin the frame
delimiter. -/
theorem splitNN_cons_not_nn (c : Char) (l : List Char)
    (h : ∀ t, c = '\n' → l = '\n' :: t → False) :
    splitNN (c :: l) = (match splitNN l with
      | s :: ss => (c :: s) :: ss
      | [] => [[c]]) := by
  rw [splitNN.eq_def]
  split
  · rename_i heq
    cases heq
  · rename_i rest heq
    rw [List.cons.injEq] at heq
    exact absurd heq.2 (fun hh => h rest heq.1 hh)
  · rename_i c2 rest hne2 heq
    rw [List.cons.injEq] at heq
    rw [heq.1, heq.2]

/-- Composition law of the greedy frame split over append: splitting
`a ++ b` is splitting `a`, keeping its trailing partial segment, and
splitting that partial segment glued to `b`. This is exactly the
`processText` buffering discipline. -/
theorem splitNN_append (b : List Char) : ∀ (a : List Char),
    splitNN (a ++ b) =
      (splitNN a).dropLast ++ splitNN ((splitNN a).getLastD [] ++ b) := by
  intro a
  induction a using splitNN.induct with
  | case1 => simp [splitNN]
  | case2 rest ih =>
    have h1 : ('\n' :: '\n' :: rest) ++ b = '\n' :: '\n' :: (rest ++ b) := rfl
    have h2 : splitNN ('\n' :: '\n' :: (rest ++ b)) = [] :: splitNN (rest ++ b) := by
      simp [splitNN]
    have h3 : splitNN ('\n' :: '\n' :: rest) = [] :: splitNN rest := by
      simp [splitNN]
    rw [h1, h2, h3, dropLast_cons_ne _ _ (splitNN_ne_nil rest),
      getLastD_cons_ne _ _ _ (splitNN_ne_nil rest), List.cons_append, ih]
  | case3 c rest hne s0 ss0 hsplit ih =>
    have hstep : splitNN (c :: rest) = (c :: s0) :: ss0 := by
      rw [splitNN_cons_not_nn c rest hne, hsplit]
    rcases rest with _ | ⟨r0, rest1⟩
    · -- a = [c]
      have hsplit2 := hsplit
      simp [splitNN] at hsplit2
      obtain ⟨h1, h2⟩ := hsplit2
      subst h1; subst h2
      rw [hstep]
      simp
    · -- rest = r0 :: rest1 nonempty: the head of rest ++ b is r0
      have hne2 : ∀ t, c = '\n' → (r0 :: rest1) ++ b = '\n' :: t → False := by
        intro t hc hcons
        rw [List.cons_append, List.cons.injEq] at hcons
        exact hne rest1 hc (by rw [hcons.1])
      have hstep2 : splitNN (c :: ((r0 :: rest1) ++ b)) =
          (match splitNN ((r0 :: rest1) ++ b) with
            | s :: ss => (c :: s) :: ss
            | [] => [[c]]) := splitNN_cons_not_nn c _ hne2
      rcases hss : ss0 with _ | ⟨t0, ts0⟩
      · -- splitNN rest = [s0], so s0 = rest and nothing was split off
        subst hss
        have hs0 : s0 = r0 :: rest1 := splitNN_singleton _ _ hsplit
        subst hs0
        rw [hstep]
        simp
      · -- at least one complete segment inside rest
        have hssne : ss0 ≠ [] := by rw [hss]; simp
        have hrb : splitNN ((r0 :: rest1) ++ b) =
            s0 :: ((ss0.dropLast) ++ splitNN (ss0.getLastD [] ++ b)) := by
          rw [ih, hsplit, dropLast_cons_ne _ _ hssne, getLastD_cons_ne _ _ _ hssne,
            List.cons_append]
        rw [List.cons_append, hstep2, hrb, hstep,
          dropLast_cons_ne _ _ hssne, getLastD_cons_ne _ _ _ hssne]
        simp
  | case4 c rest hne hsplit ih =>
    exact absurd hsplit (splitNN_ne_nil rest)

/-- The trailing partial segment kept by the split contains no delimiter:
splitting it again is the identity. -/
theorem splitNN_last (x : List Char) :
    splitNN ((splitNN x).getLastD []) = [(splitNN x).getLastD []] := by
  induction x using splitNN.induct with
  | case1 => simp [splitNN]
  | case2 rest ih =>
    have h3 : splitNN ('\n' :: '\n' :: rest) = [] :: splitNN rest := by simp [splitNN]
    rw [h3, getLastD_cons_ne _ _ _ (splitNN_ne_nil rest)]
    exact ih
  | case3 c rest hne s0 ss0 hsplit ih =>
    have hstep : splitNN (c :: rest) = (c :: s0) :: ss0 := by
      rw [splitNN_cons_not_nn c rest hne, hsplit]
    rcases hss : ss0 with _ | ⟨t0, ts0⟩
    · subst hss
      have hs0 : s0 = rest := splitNN_singleton _ _ hsplit
      subst hs0
      rw [hstep]
      simpa using hstep
    · have hssne : ss0 ≠ [] := by rw [hss]; simp
      rw [hstep, getLastD_cons_ne _ _ _ hssne]
      have h2 := ih
      rw [hsplit, getLastD_cons_ne _ _ _ hssne] at h2
      exact h2
  | case4 c rest hne hsplit ih =>
    exact absurd hsplit (splitNN_ne_nil rest)

/-- The chunked read loop parses exactly the frames of the concatenated
text: the emitted events are a function of the concatenation only,
independent of the chunk boundaries. -/
theorem pumpEvents_concat (p : String → Option Json) :
    ∀ (ts : List (List Char)) (buf : List Char), splitNN buf = [buf] →
    pumpEvents p buf ts =
      ((splitNN (buf ++ ts.flatten)).dropLast).flatMap
        (fun seg => parseSSEEvents p (seg ++ ['\n', '\n'])) := by
  intro ts
  induction ts with
  | nil =>
    intro buf hbuf
    simp [pumpEvents, hbuf]
  | cons t rest ih =>
    intro buf hbuf
    have hbuf1 : splitNN ((splitNN (buf ++ t)).getLastD []) =
        [(splitNN (buf ++ t)).getLastD []] := splitNN_last _
    simp only [pumpEvents, feedSplit]
    rw [ih _ hbuf1]
    conv_rhs => rw [List.flatten_cons, ← List.append_assoc,
      splitNN_append rest.flatten (buf ++ t),
      List.dropLast_append_of_ne_nil _ (splitNN_ne_nil _),
      List.flatMap_append]

/-! ### UTF-8 streaming decode -/

/-- Every character code point is below the Unicode bound. -/
theorem char_toNat_lt (c : Char) : c.toNat < 0x110000 := by
  rcases c with ⟨v, hv⟩
  rcases hv with h | ⟨h1, h2⟩
  · exact Nat.lt_trans h (by decide)
  · exact h2

/-- A UTF-8 encoding is never empty. -/
theorem utf8EncodeNat_ne_nil (n : Nat) : utf8EncodeNat n ≠ [] := by
  simp only [utf8EncodeNat]
  split_ifs <;> simp

/-- A lead byte announces at least one byte. -/
theorem utf8Need_pos (b : Nat) : 1 ≤ utf8Need b := by
  simp only [utf8Need]
  split_ifs <;> omega

/-- The lead byte of an encoding announces exactly its length. -/
theorem utf8Need_encode (n : Nat) (h : n < 0x110000) :
    utf8Need ((utf8EncodeNat n).headD 0) = (utf8EncodeNat n).length := by
  simp only [utf8EncodeNat]
  split_ifs with h1 h2 h3 <;>
    simp only [List.headD_cons, List.length_cons, List.length_nil] <;>
    (simp only [utf8Need]; split_ifs <;> omega)

/-- Decoding inverts encoding on every valid code point. -/
theorem utf8DecodeCp_encode (n : Nat) (h : n < 0x110000) :
    utf8DecodeCp (utf8EncodeNat n) = n := by
  simp only [utf8EncodeNat]
  split_ifs with h1 h2 h3 <;> simp only [utf8DecodeCp] <;> omega

/-- Encoding distributes over concatenation of texts. -/
theorem utf8Bytes_append (a b : List Char) :
    utf8Bytes (a ++ b) = utf8Bytes a ++ utf8Bytes b := by
  simp [utf8Bytes]

/-- Greedy decode of any prefix of a stream's encoding: some initial
characters come out whole and the carry is a short leftover. -/
theorem decodeAvail_pre : ∀ (n : Nat) (bs : List Nat) (ds : List Char),
    bs.length ≤ n → bs <+: utf8Bytes ds →
    ∃ m r, decodeAvail bs = (ds.take m, r) ∧
      utf8Bytes (ds.take m) ++ r = bs ∧ ShortPend r := by
  intro n
  induction n with
  | zero =>
    intro bs ds hlen hpre
    have hbs : bs = [] := List.eq_nil_of_length_eq_zero (Nat.le_zero.mp hlen)
    subst hbs
    exact ⟨0, [], by simp [decodeAvail], by simp [utf8Bytes], Or.inl rfl⟩
  | succ n ih =>
    intro bs ds hlen hpre
    match bs, hlen, hpre with
    | [], _, _ => exact ⟨0, [], by simp [decodeAvail], by simp [utf8Bytes], Or.inl rfl⟩
    | b :: bs2, hlen, hpre =>
      rcases ds with _ | ⟨c, ds2⟩
      · rw [show utf8Bytes ([] : List Char) = [] from rfl, List.prefix_nil] at hpre
        exact absurd hpre (by simp)
      have hclt := char_toNat_lt c
      have hencEq : utf8Bytes (c :: ds2) = utf8EncodeNat c.toNat ++ utf8Bytes ds2 := by
        simp [utf8Bytes]
      rw [hencEq] at hpre
      have hb : b = (utf8EncodeNat c.toNat).headD 0 := by
        obtain ⟨t, ht⟩ := hpre
        rcases hE : utf8EncodeNat c.toNat with _ | ⟨e0, enc2⟩
        · exact absurd hE (utf8EncodeNat_ne_nil _)
        rw [hE] at ht
        simpa using congrArg (fun l => l.headD 0) ht
      have hkey : utf8Need b = (utf8EncodeNat c.toNat).length := by
        rw [hb]
        exact utf8Need_encode c.toNat hclt
      by_cases hlt : (b :: bs2).length < utf8Need b
      · have hda : decodeAvail (b :: bs2) = ([], b :: bs2) := by
          rw [decodeAvail.eq_def]
          simp only []
          rw [dif_pos hlt]
        refine ⟨0, b :: bs2, ?_, by simp [utf8Bytes], Or.inr ?_⟩
        · rw [hda]
          simp
        · simpa using hlt
      · have hle : (utf8EncodeNat c.toNat).length ≤ (b :: bs2).length := by
          rw [← hkey]
          omega
        have hencp : utf8EncodeNat c.toNat <+: b :: bs2 := by
          rcases List.prefix_or_prefix_of_prefix
              (List.prefix_append (utf8EncodeNat c.toNat) (utf8Bytes ds2)) hpre with h | h
          · exact h
          · have heq := List.IsPrefix.eq_of_length h (Nat.le_antisymm h.length_le hle)
            rw [heq]
        obtain ⟨tail, htail⟩ := hencp
        have htake : (b :: bs2).take (utf8Need b) = utf8EncodeNat c.toNat := by
          rw [hkey, ← htail, List.take_left]
        have hdrop : (b :: bs2).drop (utf8Need b) = tail := by
          rw [hkey, ← htail, List.drop_left]
        have htailpre : tail <+: utf8Bytes ds2 := by
          obtain ⟨u, hu⟩ := hpre
          rw [← htail, List.append_assoc] at hu
          exact ⟨u, List.append_cancel_left hu⟩
        have htlen : tail.length ≤ n := by
          have h1 := utf8Need_pos b
          have h2 : (b :: bs2).length = (utf8EncodeNat c.toNat).length + tail.length := by
            rw [← htail]
            simp
          rw [← hkey] at h2
          simp only [List.length_cons] at hlen h2
          omega
        obtain ⟨m, r, hda, hsplit, hshort⟩ := ih tail ds2 htlen htailpre
        refine ⟨m + 1, r, ?_, ?_, hshort⟩
        · rw [decodeAvail.eq_def]
          simp only []
          rw [dif_neg hlt, hdrop, hda, htake,
            utf8DecodeCp_encode c.toNat hclt, Char.ofNat_toNat]
          simp
        · rw [List.take_succ_cons]
          have hby : utf8Bytes (c :: ds2.take m) =
              utf8EncodeNat c.toNat ++ utf8Bytes (ds2.take m) := by
            simp [utf8Bytes]
          rw [hby, List.append_assoc, hsplit, htail]

/-- A short carry that is itself a whole encoding is empty. -/
theorem shortPend_nil (rest : List Char) (r : List Nat)
    (hr : ShortPend r) (he : r = utf8Bytes rest) : rest = [] := by
  rcases rest with _ | ⟨c, ds2⟩
  · rfl
  exfalso
  have hclt := char_toNat_lt c
  have hencEq : utf8Bytes (c :: ds2) = utf8EncodeNat c.toNat ++ utf8Bytes ds2 := by
    simp [utf8Bytes]
  rw [hencEq] at he
  rcases hE : utf8EncodeNat c.toNat with _ | ⟨e0, enc2⟩
  · exact absurd hE (utf8EncodeNat_ne_nil _)
  rw [hE] at he
  rcases hr with hr | hr
  · rw [hr] at he
    exact absurd he.symm (by simp)
  · have hhead : r.headD 0 = e0 := by
      rw [he]
      rfl
    have hneed : utf8Need e0 = enc2.length + 1 := by
      have := utf8Need_encode c.toNat hclt
      rw [hE] at this
      simpa using this
    have hlen : r.length = enc2.length + 1 + (utf8Bytes ds2).length := by
      rw [he]
      simp
      omega
    rw [hhead, hneed] at hr
    omega

/-- The streaming decoder recovers exactly the encoded text when the
chunked bytes are a whole encoding, no matter how they are chunked. -/
theorem textOf_flatten : ∀ (chunks : List (List Nat)) (pend : List Nat) (rest : List Char),
    ShortPend pend → pend ++ chunks.flatten = utf8Bytes rest →
    (textOf pend chunks).flatten = rest := by
  intro chunks
  induction chunks with
  | nil =>
    intro pend rest hshort hinv
    simp only [List.flatten_nil, List.append_nil] at hinv
    have : rest = [] := shortPend_nil rest pend hshort hinv
    subst this
    rfl
  | cons chunk rest2 ih =>
    intro pend rest hshort hinv
    have hpre : pend ++ chunk <+: utf8Bytes rest := by
      refine ⟨rest2.flatten, ?_⟩
      rw [List.append_assoc, ← List.flatten_cons]
      exact hinv
    obtain ⟨m, r, hda, hsplit, hshort2⟩ :=
      decodeAvail_pre (pend ++ chunk).length (pend ++ chunk) rest (Nat.le_refl _) hpre
    have hstep : textOf pend (chunk :: rest2) = rest.take m :: textOf r rest2 := by
      simp only [textOf, hda]
    have hinv2 : r ++ rest2.flatten = utf8Bytes (rest.drop m) := by
      have h1 : utf8Bytes rest = utf8Bytes (rest.take m) ++ utf8Bytes (rest.drop m) := by
        rw [← utf8Bytes_append, List.take_append_drop]
      rw [h1] at hinv
      rw [List.flatten_cons, ← List.append_assoc, ← hsplit, List.append_assoc] at hinv
      exact List.append_cancel_left hinv
    rw [hstep]
    rw [List.flatten_cons, ih r (rest.drop m) hshort2 hinv2, List.take_append_drop]

/-! ### Frame splitting of rendered frames -/

/-- `nnFree` on a cons, with the guard exposed through `headD`. -/
theorem nnFree_cons (c : Char) (l : List Char) (h : l ≠ []) :
    nnFree (c :: l) = (!(c = '\n' && l.headD ' ' = '\n') && nnFree l) := by
  rcases l with _ | ⟨c2, t⟩
  · exact absurd rfl h
  · rfl

/-- The head (if any) of a newline-free line is not a newline. -/
theorem lineFree_headD (l : List Char) (h : lineFree l = true) :
    l.headD ' ' ≠ '\n' := by
  rcases l with _ | ⟨c, t⟩
  · decide
  · simp only [lineFree, List.all_cons, Bool.and_eq_true] at h
    simpa using h.1.1

/-- The head of an append keeps the head of a nonempty left part. -/
theorem headD_append_ne (l x : List Char) (h : l ≠ []) :
    (l ++ x).headD ' ' = l.headD ' ' := by
  rcases l with _ | ⟨c, t⟩
  · exact absurd rfl h
  · rfl

/-- A newline-free line has no double newline. -/
theorem nnFree_of_lineFree : ∀ (l : List Char), lineFree l = true → nnFree l = true := by
  intro l
  induction l with
  | nil => intro _; rfl
  | cons c t ih =>
    intro h
    rcases t with _ | ⟨c2, t2⟩
    · simp_all [lineFree, nnFree]
    · simp only [lineFree, List.all_cons, Bool.and_eq_true] at h
      have h2 : nnFree (c2 :: t2) = true := by
        apply ih
        simp only [lineFree, List.all_cons, Bool.and_eq_true]
        exact ⟨h.2.1, h.2.2⟩
      simp only [nnFree, Bool.and_eq_true]
      refine ⟨by simpa using Or.inl h.1.1, h2⟩

/-- Gluing a newline-free line, one newline, and a clean tail stays
clean. -/
theorem nnFree_glue : ∀ (a b : List Char), lineFree a = true →
    nnFree b = true → b ≠ [] → b.headD ' ' ≠ '\n' →
    nnFree (a ++ '\n' :: b) = true := by
  intro a
  induction a with
  | nil =>
    intro b _ hb hbne hbh
    rw [List.nil_append, nnFree_cons _ _ hbne]
    simp [hb]
    rw [← List.headD_eq_head?_getD]
    exact hbh
  | cons c t ih =>
    intro b ha hb hbne hbh
    simp only [lineFree, List.all_cons, Bool.and_eq_true] at ha
    have hcn : ¬(c = '\n') := by simpa using ha.1.1
    have hne : t ++ '\n' :: b ≠ [] := by simp
    have htail : nnFree (t ++ '\n' :: b) = true := ih b ha.2 hb hbne hbh
    rw [List.cons_append, nnFree_cons _ _ hne]
    simp [htail, hcn]

/-- The newline join of nonempty newline-free lines is clean, nonempty
and does not start with a newline. -/
theorem nnFree_intercalate : ∀ (lines : List (List Char)), lines ≠ [] →
    (∀ l ∈ lines, lineFree l = true ∧ l ≠ []) →
    nnFree (List.intercalate ['\n'] lines) = true ∧
      List.intercalate ['\n'] lines ≠ [] ∧
      (List.intercalate ['\n'] lines).headD ' ' ≠ '\n' := by
  intro lines
  induction lines with
  | nil => intro h; exact absurd rfl h
  | cons l ls ih =>
    intro _ hall
    have hl := hall l (by simp)
    rcases ls with _ | ⟨l2, ls2⟩
    · have hone : List.intercalate ['\n'] [l] = l := by simp [List.intercalate]
      rw [hone]
      exact ⟨nnFree_of_lineFree l hl.1, hl.2, lineFree_headD l hl.1⟩
    · have hcc : List.intercalate ['\n'] (l :: l2 :: ls2) =
          l ++ '\n' :: List.intercalate ['\n'] (l2 :: ls2) := by
        simp [List.intercalate, List.intersperse]
      obtain ⟨ih1, ih2, ih3⟩ := ih (by simp) (fun x hx => hall x (by simp [hx]))
      rw [hcc]
      refine ⟨nnFree_glue l _ hl.1 ih1 ih2 ih3, by simp, ?_⟩
      rw [headD_append_ne l _ hl.2]
      exact lineFree_headD l hl.1

/-- The frame splitter cuts a clean body exactly at the delimiter. -/
theorem splitNN_break : ∀ (body rest : List Char), nnFree body = true →
    splitNN (body ++ '\n' :: '\n' :: rest) = body :: splitNN rest := by
  intro body
  induction body with
  | nil =>
    intro rest _
    simp [splitNN]
  | cons c t ih =>
    intro rest hnn
    rcases t with _ | ⟨c2, t2⟩
    · have hc : ¬(c = '\n') := by simpa [nnFree] using hnn
      rw [List.cons_append, List.nil_append,
        splitNN_cons_not_nn c _ (fun t hcn _ => hc hcn)]
      have hsub : splitNN ('\n' :: '\n' :: rest) = [] :: splitNN rest := by
        simp [splitNN]
      rw [hsub]
    · simp only [nnFree, Bool.and_eq_true] at hnn
      have hpair : ¬(c = '\n' ∧ c2 = '\n') := by
        intro ⟨h1, h2⟩
        have := hnn.1
        simp [h1, h2] at this
      have hguard : ∀ tt, c = '\n' →
          (c2 :: t2) ++ '\n' :: '\n' :: rest = '\n' :: tt → False := by
        intro tt hc1 hx
        rw [List.cons_append] at hx
        exact hpair ⟨hc1, by injection hx⟩
      rw [List.cons_append, splitNN_cons_not_nn c _ hguard, ih rest hnn.2]

/-- Unpacked well-formedness of a frame. -/
theorem wfFrame_parts (f : SSEFrame) (h : wfFrame f = true) :
    f.name ≠ [] ∧ trimChars f.name = f.name ∧ lineFree f.name = true ∧
      ∀ d ∈ f.dls, trimChars d = d ∧ lineFree d = true := by
  simp only [wfFrame, Bool.and_eq_true, beq_iff_eq, List.all_eq_true,
    Bool.not_eq_true', List.isEmpty_eq_false] at h
  exact ⟨h.1.1.1, h.1.1.2, h.1.2, h.2⟩

/-- The body of a well-formed frame has no internal frame delimiter. -/
theorem wfFrame_body_nnFree (f : SSEFrame) (hwf : wfFrame f = true) :
    nnFree (frameBody f) = true := by
  obtain ⟨hne, htrim, hlf, hdls⟩ := wfFrame_parts f hwf
  have hev : "event: ".data = ['e', 'v', 'e', 'n', 't', ':', ' '] := rfl
  have hda : "data: ".data = ['d', 'a', 't', 'a', ':', ' '] := rfl
  refine (nnFree_intercalate _ (by simp) ?_).1
  intro l hl
  rcases List.mem_cons.mp hl with hl | hl
  · constructor
    · rw [hl, lineFree, List.all_append]
      exact (Bool.and_eq_true _ _).mpr ⟨by decide, hlf⟩
    · rw [hl, hev]
      simp
  · obtain ⟨d, hd, rfl⟩ := List.mem_map.mp hl
    constructor
    · rw [lineFree, List.all_append]
      exact (Bool.and_eq_true _ _).mpr ⟨by decide, (hdls d hd).2⟩
    · rw [hda]
      simp

/-- Splitting the rendered stream yields the frame bodies plus the empty
trailing segment. -/
theorem splitNN_renderFrames : ∀ (fs : List SSEFrame),
    (∀ f ∈ fs, wfFrame f = true) →
    splitNN (renderFrames fs) = fs.map frameBody ++ [[]] := by
  intro fs
  induction fs with
  | nil =>
    intro _
    simp [renderFrames, splitNN]
  | cons f fs2 ih =>
    intro hall
    have h1 : renderFrames (f :: fs2) =
        frameBody f ++ '\n' :: '\n' :: renderFrames fs2 := by
      simp [renderFrames]
    rw [h1, splitNN_break _ _ (wfFrame_body_nnFree f (hall f (by simp))),
      ih (fun g hg => hall g (by simp [hg]))]
    simp

/-- Unfolding of the line splitter on a cons that begins no line break. -/
theorem splitLines_cons_other (c : Char) (l : List Char)
    (h1 : ¬(c = '\n')) (h2 : ¬(c = '\r')) :
    splitLines (c :: l) = (match splitLines l with
      | s :: ss => (c :: s) :: ss
      | [] => [[c]]) := by
  rw [splitLines.eq_def]
  split
  · rename_i heq
    cases heq
  · rename_i rest heq
    rw [List.cons.injEq] at heq
    exact absurd heq.1 h2
  · rename_i rest heq
    rw [List.cons.injEq] at heq
    exact absurd heq.1 h1
  · rename_i c2 rest hne2 heq
    rw [List.cons.injEq] at heq
    rw [heq.1, heq.2]

/-- The line splitter cuts a line-break-free line at its newline. -/
theorem splitLines_push : ∀ (l rest : List Char), lineFree l = true →
    splitLines (l ++ '\n' :: rest) = l :: splitLines rest := by
  intro l
  induction l with
  | nil =>
    intro rest _
    simp [splitLines]
  | cons c t ih =>
    intro rest hlf
    simp only [lineFree, List.all_cons, Bool.and_eq_true] at hlf
    have hc1 : ¬(c = '\n') := by simpa using hlf.1.1
    have hc2 : ¬(c = '\r') := by simpa using hlf.1.2
    rw [List.cons_append, splitLines_cons_other c _ hc1 hc2, ih rest hlf.2]

/-- Rendered frame text splits into its lines plus two blanks. -/
theorem splitLines_text : ∀ (lines : List (List Char)), lines ≠ [] →
    (∀ l ∈ lines, lineFree l = true) →
    splitLines (List.intercalate ['\n'] lines ++ ['\n', '\n']) =
      lines ++ [[], []] := by
  intro lines
  induction lines with
  | nil => intro h; exact absurd rfl h
  | cons l ls ih =>
    intro _ hall
    have hl := hall l (by simp)
    rcases ls with _ | ⟨l2, ls2⟩
    · have hone : List.intercalate ['\n'] [l] = l := by simp [List.intercalate]
      rw [hone]
      have h2 : (['\n', '\n'] : List Char) = '\n' :: ['\n'] := rfl
      rw [h2, splitLines_push l _ hl]
      simp [splitLines]
    · have hcc : List.intercalate ['\n'] (l :: l2 :: ls2) =
          l ++ '\n' :: List.intercalate ['\n'] (l2 :: ls2) := by
        simp [List.intercalate, List.intersperse]
      rw [hcc, List.append_assoc, List.cons_append, splitLines_push l _ hl,
        ih (by simp) (fun x hx => hall x (by simp [hx]))]
      simp

/-! ### Per-frame parse of the rendered lines -/

/-- A leading space is dropped by trimming. -/
theorem trimChars_space (l : List Char) : trimChars (' ' :: l) = trimChars l := by
  simp [trimChars, List.dropWhile_cons, isWsChar]

/-- The `event:` prefix test accepts the rendered event line. -/
theorem startsWith_event (name : List Char) :
    startsWithL "event:".data ("event: ".data ++ name) = true :=
  List.isPrefixOf_iff_prefix.mpr ⟨' ' :: name, rfl⟩

/-- The `data:` prefix test accepts the rendered data line. -/
theorem startsWith_data (d : List Char) :
    startsWithL "data:".data ("data: ".data ++ d) = true :=
  List.isPrefixOf_iff_prefix.mpr ⟨' ' :: d, rfl⟩

/-- A rendered data line never looks like an event line. -/
theorem not_event_data (d : List Char) :
    startsWithL "event:".data ("data: ".data ++ d) = false := rfl

/-- A blank line is no event line. -/
theorem not_event_nil : startsWithL "event:".data ([] : List Char) = false := rfl

/-- A blank line is no data line. -/
theorem not_data_nil : startsWithL "data:".data ([] : List Char) = false := rfl

/-- Dropping the `event:` tag of a rendered event line. -/
theorem drop_event (name : List Char) :
    ("event: ".data ++ name).drop 6 = ' ' :: name := rfl

/-- Dropping the `data:` tag of a rendered data line. -/
theorem drop_data (d : List Char) :
    ("data: ".data ++ d).drop 5 = ' ' :: d := rfl

/-- A rendered data line never looks like an event line. -/
theorem not_event_dataC (d : List Char) :
    startsWithL "event:".data ('d' :: 'a' :: 't' :: 'a' :: ':' :: ' ' :: d) = false := rfl
/-- The tag test accepts a rendered data line. -/
theorem startsWith_dataC (d : List Char) :
    startsWithL "data:".data ('d' :: 'a' :: 't' :: 'a' :: ':' :: ' ' :: d) = true :=
  List.isPrefixOf_iff_prefix.mpr ⟨' ' :: d, rfl⟩
/-- Dropping the tag of a rendered data line. -/
theorem drop_dataC (d : List Char) :
    List.drop 5 ('d' :: 'a' :: 't' :: 'a' :: ':' :: ' ' :: d) = ' ' :: d := rfl
/-- The raw scan over rendered data lines and the closing blanks flushes
one pair holding the name and the newline-joined payload lines. -/
theorem parseSSEPairsGo_data : ∀ (dls : List (List Char)) (name : List Char)
    (acc : List (List Char)), name ≠ [] → (∀ d ∈ dls, trimChars d = d) →
    parseSSEPairsGo (dls.map (fun d => "data: ".data ++ d) ++ [[], []])
        (some name) acc =
      [(String.mk name, String.mk (List.intercalate ['\n'] (acc ++ dls)))] := by
  intro dls
  induction dls with
  | nil =>
    intro name acc hne _
    simp [parseSSEPairsGo, startsWithL, List.isPrefixOf, trimChars, hne]
  | cons d dls2 ih =>
    intro name acc hne hall
    have hd := hall d (by simp)
    simp only [List.map_cons, List.cons_append, List.nil_append]
    rw [parseSSEPairsGo, not_event_dataC, if_neg (by simp), startsWith_dataC,
      if_pos rfl, drop_dataC, trimChars_space, hd]
    have hres := ih name (acc ++ [d]) hne (fun x hx => hall x (by simp [hx]))
    rw [(by simp : (acc ++ [d]) ++ dls2 = acc ++ d :: dls2)] at hres
    exact hres

/-- The tag test accepts a rendered event line. -/
theorem startsWith_eventC (name : List Char) :
    startsWithL "event:".data
      ('e' :: 'v' :: 'e' :: 'n' :: 't' :: ':' :: ' ' :: name) = true :=
  List.isPrefixOf_iff_prefix.mpr ⟨' ' :: name, rfl⟩

/-- Dropping the tag of a rendered event line. -/
theorem drop_eventC (name : List Char) :
    List.drop 6 ('e' :: 'v' :: 'e' :: 'n' :: 't' :: ':' :: ' ' :: name) =
      ' ' :: name := rfl

/-- `parseSSELines`'s raw scan recovers exactly one pair from one rendered
well-formed frame. -/
theorem parseSSEPairs_frame (f : SSEFrame) (hwf : wfFrame f = true) :
    parseSSEPairs (frameBody f ++ ['\n', '\n']) =
      [(String.mk f.name, String.mk (List.intercalate ['\n'] f.dls))] := by
  obtain ⟨hne, htrim, hlf, hdls⟩ := wfFrame_parts f hwf
  rw [parseSSEPairs, frameBody]
  rw [splitLines_text _ (by simp) ?hlines]
  case hlines =>
    intro l hl
    rcases List.mem_cons.mp hl with hl | hl
    · rw [hl, lineFree, List.all_append]
      exact (Bool.and_eq_true _ _).mpr ⟨by decide, hlf⟩
    · obtain ⟨d, hd, rfl⟩ := List.mem_map.mp hl
      rw [lineFree, List.all_append]
      exact (Bool.and_eq_true _ _).mpr ⟨by decide, (hdls d hd).2⟩
  simp only [List.cons_append, List.nil_append]
  rw [parseSSEPairsGo, startsWith_eventC, if_pos rfl, drop_eventC,
    trimChars_space, htrim]
  exact (parseSSEPairsGo_data f.dls f.name [] hne
    (fun d hd => (hdls d hd).1)).trans (by simp)

/-- The full per-frame parse yields exactly the frame's event. -/
theorem parseSSEEvents_frame (p : String → Option Json) (f : SSEFrame)
    (hwf : wfFrame f = true) :
    parseSSEEvents p (frameBody f ++ ['\n', '\n']) = [eventOfFrame p f] := by
  rw [parseSSEEvents, parseSSEPairs_frame f hwf]
  rfl

/-- Parsing each closed frame body yields the frames' events in order. -/
theorem readerFlat (p : String → Option Json) : ∀ (fs : List SSEFrame),
    (∀ f ∈ fs, wfFrame f = true) →
    (fs.map frameBody).flatMap (fun seg => parseSSEEvents p (seg ++ ['\n', '\n'])) =
      fs.map (eventOfFrame p) := by
  intro fs
  induction fs with
  | nil => intro _; rfl
  | cons f fs2 ih =>
    intro hall
    simp only [List.map_cons, List.flatMap_cons]
    rw [parseSSEEvents_frame p f (hall f (by simp)),
      ih (fun g hg => hall g (by simp [hg]))]
    rfl

/-- C4: for every byte stream that concatenates to the UTF-8 encoding of N
complete well-formed SSE frames, and for every partition of those bytes
into input chunks — including partitions cutting inside the UTF-8 encoding
of a payload — the frame-reading stage (streaming decode, frame-delimiter
buffering, per-frame line parse) emits exactly the N `(eventName, data)`
events of the frames, in order; since the result depends only on the
concatenation, every partition of the same bytes yields the same event
sequence. -/
theorem frame_reader_partition_invariant (p : String → Option Json)
    (fs : List SSEFrame) (chunks : List (List Nat))
    (hwf : wfFrames fs = true)
    (hbytes : chunks.flatten = utf8Bytes (renderFrames fs)) :
    readerEvents p chunks = fs.map (eventOfFrame p) ∧
      (readerEvents p chunks).length = fs.length := by
  simp only [wfFrames, List.all_eq_true] at hwf
  have htext : (textOf [] chunks).flatten = renderFrames fs :=
    textOf_flatten chunks [] (renderFrames fs) (Or.inl rfl) (by simpa using hbytes)
  have hpump := pumpEvents_concat p (textOf [] chunks) [] rfl
  have hmain : readerEvents p chunks = fs.map (eventOfFrame p) := by
    rw [readerEvents, hpump]
    simp only [List.nil_append]
    rw [htext, splitNN_renderFrames fs hwf, List.dropLast_concat,
      readerFlat p fs hwf]
  exact ⟨hmain, by rw [hmain]; simp⟩

/-- Witness: the concrete two-frame stream of `sampleFrames`, chunked by
`sampleChunks` with a cut between the two bytes of the encoding of `é`,
is well-formed, concatenates to the rendered bytes, and is read back as
exactly its two events. -/
theorem frame_reader_partition_invariant_witness :
    wfFrames sampleFrames = true ∧
      sampleChunks.flatten = utf8Bytes (renderFrames sampleFrames) ∧
      readerEvents (fun _ => Option.none) sampleChunks =
        sampleFrames.map (eventOfFrame (fun _ => Option.none)) :=
  ⟨by decide, by decide,
    (frame_reader_partition_invariant (fun _ => Option.none) sampleFrames
      sampleChunks (by decide) (by decide)).1⟩
